import Mathlib

/-!
MatrixLib.SquareMat: a shallow embedding of the C++ class

The C++ class `SquareMat` (src/MatrixLib/SquareMat.cpp, SquareMat.h) is embedded as a
record of the order `n` and the row-major buffer `data`.  A `double` is read as an exact
rational number (every finite double is one), so that all definitions stay executable.
Exceptions are values of `Except Error`, and `new` is taken to succeed. An order is a value
of `std::size_t`, a natural number below `2^64`. The constructor called with an arbitrary
order is `ctor_size_t`, where the cell count `n * n` wraps as it does in the source; `ctor`
is the same constructor with the product not wrapped, which is what the source computes for
every order below `2^32`, and it is the form the operators use on the order of an operand.
-/

namespace MatrixLib

/-- The three exception classes thrown by the library. -/
inductive Error where
  | invalid_argument
  | logic_error
  | out_of_range
deriving DecidableEq, Repr

/-- Equality of outcomes is decidable. -/
instance {ε α : Type} [DecidableEq ε] [DecidableEq α] : DecidableEq (Except ε α)
  | .ok a, .ok b => if h : a = b then isTrue (by rw [h]) else isFalse (fun h2 => h (by cases h2; rfl))
  | .error a, .error b =>
    if h : a = b then isTrue (by rw [h]) else isFalse (fun h2 => h (by cases h2; rfl))
  | .ok _, .error _ => isFalse (fun h => by cases h)
  | .error _, .ok _ => isFalse (fun h => by cases h)

/-- The fields of `class SquareMat`: the order `n` and the flat row-major buffer `data`. -/
structure SquareMat where
  n : Nat
  data : List ℚ
deriving DecidableEq, Repr

/-- The constant `SquareMat::EPS = 1e-9`: the value of the `double` that the literal `1e-9`
denotes, `4835703278458517 / 2^82`, which is the double nearest to `1/10^9` and lies just
above it. -/
def EPS : ℚ := 4835703278458517 / 4835703278458516698824704

/-- The counting loop `for (k = lo; k < hi; ++k) s = body(k, s)` on a state `s`. -/
def forLoop {σ : Type} (lo hi : Nat) (body : Nat → σ → σ) (s : σ) : σ :=
  (List.range' lo (hi - lo)).foldl (fun s k => body k s) s

/-- The counting loop `for (k = lo; k < hi; ++k)` whose body may throw. -/
def forLoopM {σ : Type} (lo hi : Nat) (body : Nat → σ → Except Error σ) (s : σ) :
    Except Error σ :=
  (List.range' lo (hi - lo)).foldlM (fun s k => body k s) s

namespace SquareMat

/-- The class invariant on storage: the buffer holds `n * n` cells. -/
def WF (M : SquareMat) : Prop := M.data.length = M.n * M.n

instance (M : SquareMat) : Decidable M.WF := by unfold WF; infer_instance

/-- The private helper `idx(i, j) = i * n + j`. -/
def idx (n i j : Nat) : Nat := i * n + j

/-- A raw read `data[k]` of the buffer. -/
def rd (buf : List ℚ) (k : Nat) : ℚ := buf.getD k 0

/-- The accessor `order()`. -/
def order (M : SquareMat) : Nat := M.n

/-- A fresh allocation `new double[len]`. -/
def alloc (len : Nat) : List ℚ := List.replicate len 0

/-- The constructor `SquareMat(order, initVal)`: rejects order 0 with a nonzero fill,
otherwise allocates `n * n` cells and sets each one to `initVal`. The product `n * n` is not
wrapped here: this is the constructor on an order below `2^32` (see `ctor_size_t`). -/
def ctor (order : Nat) (initVal : ℚ) : Except Error SquareMat :=
  if order = 0 ∧ initVal ≠ 0 then throw Error.invalid_argument
  else if order ≠ 0 then
    pure ⟨order, forLoop 0 (order * order) (fun i d => d.set i initVal) (alloc (order * order))⟩
  else pure ⟨order, []⟩

/-- The copy constructor: a fresh buffer holding the first `n * n` cells of the original. -/
def copy (other : SquareMat) : SquareMat :=
  if other.n ≠ 0 then
    ⟨other.n, forLoop 0 (other.n * other.n) (fun i d => d.set i (rd other.data i))
      (alloc (other.n * other.n))⟩
  else ⟨other.n, []⟩

/-- The bounds check of `operator[]`: the offset `row * n` of the row in the buffer, or
`out_of_range` when `row >= n`. -/
def rowPtr (n row : Nat) : Except Error Nat :=
  if row ≥ n then throw Error.out_of_range else pure (row * n)

/-- The expression `M[i][j]` on a buffer of order `n`: checked row access, then a raw read at
column `j`. -/
def elem (n : Nat) (buf : List ℚ) (i j : Nat) : Except Error ℚ := do
  let p ← rowPtr n i
  pure (rd buf (p + j))

/-- The expression `M[i][j]` on a matrix. -/
def get (M : SquareMat) (i j : Nat) : Except Error ℚ := elem M.n M.data i j

end SquareMat

open SquareMat

/-- The check `ensure_same`: both operands must have the same order. -/
def ensure_same (a b : SquareMat) : Except Error Unit :=
  if a.order ≠ b.order then throw Error.invalid_argument else pure ()

/-- Element-wise addition `operator+`. -/
def add (a b : SquareMat) : Except Error SquareMat := do
  ensure_same a b
  let n := a.order
  let r ← ctor n 0
  pure ⟨r.n, forLoop 0 (n * n) (fun i d => d.set i (rd a.data i + rd b.data i)) r.data⟩

/-- Element-wise subtraction `operator-`. -/
def sub (a b : SquareMat) : Except Error SquareMat := do
  ensure_same a b
  let n := a.order
  let r ← ctor n 0
  pure ⟨r.n, forLoop 0 (n * n) (fun i d => d.set i (rd a.data i - rd b.data i)) r.data⟩

/-- The matrix product `operator*(const SquareMat&, const SquareMat&)`, loops in the order
`i`, `k`, `j`; every `X[r][c]` goes through the checked row access. -/
def mul (A B : SquareMat) : Except Error SquareMat := do
  ensure_same A B
  let n := A.order
  let C ← ctor n 0
  let d ← forLoopM 0 n (fun i d =>
    forLoopM 0 n (fun k d => do
      let aik ← elem A.n A.data i k
      forLoopM 0 n (fun j d => do
        let bkj ← elem B.n B.data k j
        let p ← rowPtr C.n i
        pure (d.set (p + j) (rd d (p + j) + aik * bkj))) d) d) C.data
  pure ⟨C.n, d⟩

/-- Element-wise product `operator%(const SquareMat&, const SquareMat&)`. -/
def emul (A B : SquareMat) : Except Error SquareMat := do
  ensure_same A B
  let R ← ctor A.order 0
  pure ⟨R.n,
    forLoop 0 (A.order * A.order) (fun i d => d.set i (rd A.data i * rd B.data i)) R.data⟩

/-- Truncation of a rational toward zero. -/
def trunc (q : ℚ) : ℤ := if 0 ≤ q then ⌊q⌋ else ⌈q⌉

/-- The C library function `fmod`: `x - k * y` where `k` is `x / y` with its fractional part
dropped, so the result has the sign of `x` and magnitude below `|y|`. -/
def fmod (x y : ℚ) : ℚ := x - (trunc (x / y) : ℚ) * y

/-- The element-wise scalar modulo `operator%(const SquareMat&, int)`. The modulus `int m` is
an integer, converted exactly where the source converts it to `double`. -/
def modInt (M : SquareMat) (m : ℤ) : Except Error SquareMat := do
  if m = 0 then throw Error.invalid_argument
  let R ← ctor M.order 0
  pure ⟨R.n,
    forLoop 0 (M.order * M.order) (fun i d =>
      let d := d.set i (fmod (rd M.data i) (m : ℚ))
      if rd d i < 0 then d.set i (rd d i + (m : ℚ)) else d) R.data⟩

/-- The power `operator^` by recursive halving. The exponent `unsigned int k` is a natural
number; the recursion only halves it, so no arithmetic on it can wrap. -/
def pow (A : SquareMat) (k : Nat) : Except Error SquareMat :=
  if A.n = 0 then throw Error.logic_error
  else if h0 : k = 0 then do
    let I ← ctor A.n 0
    pure ⟨I.n, forLoop 0 A.n (fun i d => d.set (i * A.n + i) 1) I.data⟩
  else if h1 : k = 1 then pure (copy A)
  else do
    let half ← pow A (k / 2)
    let res ← mul half half
    if k % 2 ≠ 0 then do
      let t ← mul res A
      pure (copy t)
    else pure res
termination_by k
decreasing_by omega

/-- The search for the pivot row of stage `i` (lines 243-248 of `operator!`). -/
def findMaxRow (n : Nat) (A : List ℚ) (i : Nat) : Except Error Nat :=
  forLoopM (i + 1) n (fun j max_row => do
    let x ← elem n A j i
    let y ← elem n A max_row i
    pure (if |x| > |y| then j else max_row)) i

/-- The row exchange of `operator!` (lines 252-254): `std::swap(A[i][k], A[max_row][k])` for
every column `k`. -/
def swapRowsLoop (n : Nat) (A : List ℚ) (i max_row : Nat) : Except Error (List ℚ) :=
  forLoopM 0 n (fun k A => do
    let pi ← rowPtr n i
    let pm ← rowPtr n max_row
    let a := rd A (pi + k)
    let b := rd A (pm + k)
    pure ((A.set (pi + k) b).set (pm + k) a)) A

/-- The elimination below the pivot of stage `i` (lines 262-267 of `operator!`). -/
def eliminate (n : Nat) (A : List ℚ) (i : Nat) : Except Error (List ℚ) :=
  forLoopM (i + 1) n (fun j A => do
    let x ← elem n A j i
    let y ← elem n A i i
    let factor := x / y
    forLoopM i n (fun k A => do
      let pj ← rowPtr n j
      let aik ← elem n A i k
      pure (A.set (pj + k) (rd A (pj + k) - factor * aik))) A) A

/-- One pass of the outer loop of `operator!` at stage `i`. The first component is the pivot
`A[i][i]` that line 259 tests against `EPS`; the second is `none` when that test returns 0
from the function, and otherwise the working buffer and the running `det` after the pass. -/
def detStage (n i : Nat) (A : List ℚ) (det : ℚ) :
    Except Error (ℚ × Option (List ℚ × ℚ)) := do
  let max_row ← findMaxRow n A i
  let (A, det) ← (if i ≠ max_row then do
      let A ← swapRowsLoop n A i max_row
      pure (A, det * (-1))
    else pure (A, det) : Except Error (List ℚ × ℚ))
  let p ← elem n A i i
  if |p| < EPS then pure (p, none)
  else do
    let A ← eliminate n A i
    let q ← elem n A i i
    pure (p, some (A, det * q))

/-- The outer loop of `operator!` with `steps` passes left, starting at stage `i`. It yields
the list of pivots that were tested, and the accumulated `det` when no test returned early. -/
def detLoop (n : Nat) : Nat → Nat → List ℚ → ℚ → Except Error (List ℚ × Option ℚ)
  | 0, _, _, det => pure ([], some det)
  | steps + 1, i, A, det => do
    let (p, next) ← detStage n i A det
    match next with
    | none => pure ([p], none)
    | some (A, det) => do
      let (ps, r) ← detLoop n steps (i + 1) A det
      pure (p :: ps, r)

/-- The determinant `operator!`: Gaussian elimination on a copy, with the `EPS` tests. -/
def det (M : SquareMat) : Except Error ℚ := do
  if M.n = 0 then throw Error.logic_error
  let A := copy M
  let (_, r) ← detLoop M.n M.n 0 A.data 1
  match r with
  | none => pure 0
  | some d => pure (if |d| < EPS then 0 else d)

/-- The pivots that `operator!` tests against `EPS` on `M`, in order. -/
def pivots (M : SquareMat) : List ℚ :=
  match detLoop M.n M.n 0 (copy M).data 1 with
  | .ok (ps, _) => ps
  | .error _ => []

/-- The signed product of pivots that `operator!` has accumulated on `M` when its loop ends
without an early return. -/
def accumulated (M : SquareMat) : Option ℚ :=
  match detLoop M.n M.n 0 (copy M).data 1 with
  | .ok (_, r) => r
  | .error _ => none

/-- The value that `operator%(const SquareMat&, int)` stores for an element `x`. -/
def modCell (x : ℚ) (m : ℤ) : ℚ :=
  if fmod x (m : ℚ) < 0 then fmod x (m : ℚ) + (m : ℚ) else fmod x (m : ℚ)

/-- The abstract matrix held by a buffer of order `n`: entry `(i, j)` is cell `i * n + j`. -/
def mat (n : Nat) (d : List ℚ) : Matrix (Fin n) (Fin n) ℚ :=
  Matrix.of fun i j => rd d (i.val * n + j.val)

/-- The matrix `M` with rows `p` and `q` exchanged, by the exchange loop of `operator!`
(lines 252-254) run on the buffer of `M`. -/
def swap_rows (M : SquareMat) (p q : Nat) : SquareMat :=
  ⟨M.n, forLoop 0 M.n (fun k A =>
    (A.set (p * M.n + k) (rd A (q * M.n + k))).set (q * M.n + k) (rd A (p * M.n + k))) M.data⟩

/-- The row that ends up at position `r` when rows `i` and `m` are exchanged. -/
def swapIdx (i m r : Nat) : Nat := if r = i then m else if r = m then i else r

/-- The loop invariant of `operator!` before stage `i`, for a matrix of determinant `D`: the
working buffer is zero below the diagonal in the columns before `i`, its determinant is `D` up
to the sign of the exchanges made so far, and the running value `dv` is that sign times the
product of the diagonal cells before `i`. -/
def StageInv (n i : Nat) (D : ℚ) (A : List ℚ) (dv : ℚ) : Prop :=
  A.length = n * n ∧
  (∀ r c, r < n → c < i → c < r → rd A (r * n + c) = 0) ∧
  ∃ s : ℚ, s * s = 1 ∧ (mat n A).det = s * D ∧
    dv = s * ∏ k in Finset.range i, rd A (k * n + k)

/-- No `EPS` cut-off of `operator!` fires on `M`: every pivot it tests, and the product it has
accumulated when the loop ends, is at least `EPS` in absolute value. -/
def noCutoff (M : SquareMat) : Prop :=
  (∀ p ∈ pivots M, EPS ≤ |p|) ∧ (∀ d, accumulated M = some d → EPS ≤ |d|)

instance (M : SquareMat) : Decidable (noCutoff M) := by
  unfold noCutoff
  cases accumulated M with
  | none => exact decidable_of_iff (∀ p ∈ pivots M, EPS ≤ |p|) (by simp)
  | some d => exact decidable_of_iff ((∀ p ∈ pivots M, EPS ≤ |p|) ∧ EPS ≤ |d|) (by simp)

/-- The Leibniz determinant of the matrix held by `M`: the sum over all permutations `σ` of
the sign of `σ` times the product of the entries `(σ i, i)`. -/
def leibnizDet (M : SquareMat) : ℚ :=
  ∑ σ : Equiv.Perm (Fin M.n),
    ((Equiv.Perm.sign σ : ℤ) : ℚ) * ∏ i : Fin M.n, rd M.data ((σ i).val * M.n + i.val)

/-- The constructor from a nested initializer list: the number of rows is the order, an empty
list and a row of another length are rejected, and the values are stored at `idx(r, c)` with
`r` counting the rows and `c` the values of a row. -/
def fromRows (init : List (List ℚ)) : Except Error SquareMat := do
  let n := init.length
  if n = 0 then throw Error.invalid_argument
  let st ← init.foldlM (fun (st : List ℚ × Nat) (row : List ℚ) =>
      if row.length ≠ n then (throw Error.invalid_argument : Except Error (List ℚ × Nat))
      else
        pure ((row.foldl (fun (w : List ℚ × Nat) (v : ℚ) => (w.1.set (idx n st.2 w.2) v, w.2 + 1))
          (st.1, 0)).1, st.2 + 1))
    (alloc (n * n), 0)
  pure ⟨n, st.1⟩

/-- The copy assignment `operator=` from another object (copy-and-swap): the receiver takes a
copy of `other`. On self-assignment the source returns at once and the value stays as it is. -/
def assign (_self other : SquareMat) : SquareMat := copy other

/-- The member `sum()`: the cells `0 .. n*n-1` added up from 0. -/
def SquareMat.sum (M : SquareMat) : ℚ :=
  forLoop 0 (M.n * M.n) (fun i s => s + rd M.data i) 0

/-- The scalar product `operator*(double, const SquareMat&)`. -/
def smul (s : ℚ) (M : SquareMat) : Except Error SquareMat := do
  let R ← ctor M.order 0
  pure ⟨R.n, forLoop 0 (M.order * M.order) (fun i d => d.set i (s * rd M.data i)) R.data⟩

/-- The scalar product `operator*(const SquareMat&, double)`, which returns `s * M`. -/
def mulScalar (M : SquareMat) (s : ℚ) : Except Error SquareMat := smul s M

/-- The division by a scalar `operator/(const SquareMat&, double)`. -/
def divScalar (M : SquareMat) (s : ℚ) : Except Error SquareMat := do
  if |s| < EPS then throw Error.invalid_argument
  let R ← ctor M.order 0
  pure ⟨R.n, forLoop 0 (M.order * M.order) (fun i d => d.set i (rd M.data i / s)) R.data⟩

/-- The comparison `operator==`: the sums differ by less than `EPS`. -/
def opEq (A rhs : SquareMat) : Bool := decide (|A.sum - rhs.sum| < EPS)

/-- The comparison `operator!=`. -/
def opNe (A rhs : SquareMat) : Bool := !(opEq A rhs)

/-- The comparison `operator<`. -/
def opLt (A rhs : SquareMat) : Bool := decide (A.sum < rhs.sum - EPS)

/-- The outcome of a mutating member function: whether it threw, and the receiver after the
call. -/
structure InPlace where
  result : Except Error Unit
  self : SquareMat
deriving DecidableEq

/-- The statement `return *this = e;` of the compound operators: when the evaluation of `e`
throws, the receiver is not touched; otherwise it is assigned the value of `e`. -/
def assignResult (self : SquareMat) (e : Except Error SquareMat) : InPlace :=
  match e with
  | .error err => ⟨.error err, self⟩
  | .ok r => ⟨.ok (), assign self r⟩

/-- The compound `operator+=`. -/
def addAssign (self rhs : SquareMat) : InPlace := assignResult self (add self rhs)

/-- The compound `operator-=`. -/
def subAssign (self rhs : SquareMat) : InPlace := assignResult self (sub self rhs)

/-- The compound `operator*=(const SquareMat&)`. -/
def mulAssign (self rhs : SquareMat) : InPlace := assignResult self (mul self rhs)

/-- The compound `operator*=(double)`, which scales the cells of the receiver in place. -/
def mulAssignScalar (self : SquareMat) (s : ℚ) : InPlace :=
  ⟨.ok (), ⟨self.n, forLoop 0 (self.n * self.n) (fun i d => d.set i (rd d i * s)) self.data⟩⟩

/-- The compound `operator/=(double)`. -/
def divAssign (self : SquareMat) (s : ℚ) : InPlace := assignResult self (divScalar self s)

/-- The compound `operator%=(const SquareMat&)`. -/
def emulAssign (self rhs : SquareMat) : InPlace := assignResult self (emul self rhs)

/-- The compound `operator%=(int)`. -/
def modAssign (self : SquareMat) (m : ℤ) : InPlace := assignResult self (modInt self m)

/-- The pre-increment `operator++()`: the value returned (the receiver) and the receiver
after the call. -/
def preInc (self : SquareMat) : SquareMat × SquareMat :=
  let t : SquareMat :=
    ⟨self.n, forLoop 0 (self.n * self.n) (fun i d => d.set i (rd d i + 1)) self.data⟩
  (t, t)

/-- The post-increment `operator++(int)`: the copy taken before the increment and the
receiver after the call. -/
def postInc (self : SquareMat) : SquareMat × SquareMat :=
  let t := copy self
  (t, (preInc self).2)

/-- The pre-decrement `operator--()`. -/
def preDec (self : SquareMat) : SquareMat × SquareMat :=
  let t : SquareMat :=
    ⟨self.n, forLoop 0 (self.n * self.n) (fun i d => d.set i (rd d i - 1)) self.data⟩
  (t, t)

/-- The post-decrement `operator--(int)`. -/
def postDec (self : SquareMat) : SquareMat × SquareMat :=
  let t := copy self
  (t, (preDec self).2)

/-- The standard triple sum of the specification for cell `(i, j)` of a product: the sum over
`k` of `A[i][k] * B[k][j]`. -/
def mulTripleSum (A B : SquareMat) (i j : Nat) : ℚ :=
  ∑ k in Finset.range A.n, rd A.data (idx A.n i k) * rd B.data (idx B.n k j)

/-- The product of two `std::size_t` values, which are 64 bits wide: it wraps modulo
`2^64`. -/
def size_mul (a b : Nat) : Nat := a * b % 18446744073709551616

/-- The constructor `SquareMat(std::size_t order, double initVal)` with the arithmetic of
`std::size_t`: the cell count `n * n` of the allocation and of the fill loop is the wrapped
product, so from order `2^32` on the buffer has fewer than `order * order` cells. -/
def ctor_size_t (order : Nat) (initVal : ℚ) : Except Error SquareMat :=
  if order = 0 ∧ initVal ≠ 0 then throw Error.invalid_argument
  else if order ≠ 0 then
    pure ⟨order, forLoop 0 (size_mul order order) (fun i d => d.set i initVal)
      (alloc (size_mul order order))⟩
  else pure ⟨order, []⟩

/-! ## Loop rules -/

theorem forLoop_succ {σ : Type} (lo hi : Nat) (body : Nat → σ → σ) (s : σ) (h : lo ≤ hi) :
    forLoop lo (hi + 1) body s = body hi (forLoop lo hi body s) := by
  unfold forLoop
  have e : hi + 1 - lo = (hi - lo) + 1 := by omega
  rw [e, List.range'_1_concat, List.foldl_append]
  have e2 : lo + (hi - lo) = hi := by omega
  simp [e2]

theorem forLoop_nil {σ : Type} (lo hi : Nat) (body : Nat → σ → σ) (s : σ) (h : hi ≤ lo) :
    forLoop lo hi body s = s := by
  unfold forLoop
  have e : hi - lo = 0 := by omega
  simp [e]

/-- Invariant rule for the pure counting loop. -/
theorem forLoop_inv {σ : Type} (P : Nat → σ → Prop) (lo hi : Nat) (body : Nat → σ → σ) (s : σ)
    (hle : lo ≤ hi) (h0 : P lo s)
    (hstep : ∀ k s, lo ≤ k → k < hi → P k s → P (k + 1) (body k s)) :
    P hi (forLoop lo hi body s) := by
  obtain ⟨d, rfl⟩ := Nat.exists_eq_add_of_le hle
  induction d with
  | zero => simpa [forLoop_nil] using h0
  | succ d ih =>
    rw [← Nat.add_assoc, forLoop_succ _ _ _ _ (by omega)]
    apply hstep _ _ (by omega) (by omega)
    exact ih (by omega) (fun k s h1 h2 => hstep k s h1 (by omega))

theorem forLoopM_succ {σ : Type} (lo hi : Nat) (body : Nat → σ → Except Error σ) (s : σ)
    (h : lo ≤ hi) :
    forLoopM lo (hi + 1) body s = forLoopM lo hi body s >>= body hi := by
  unfold forLoopM
  have e : hi + 1 - lo = (hi - lo) + 1 := by omega
  rw [e, List.range'_1_concat, List.foldlM_append]
  have e2 : lo + (hi - lo) = hi := by omega
  simp [e2]

theorem forLoopM_nil {σ : Type} (lo hi : Nat) (body : Nat → σ → Except Error σ) (s : σ)
    (h : hi ≤ lo) : forLoopM lo hi body s = .ok s := by
  unfold forLoopM
  have e : hi - lo = 0 := by omega
  simp [e]
  rfl

/-- Invariant rule for the throwing counting loop: when every pass succeeds and keeps the
invariant, the loop succeeds and ends in a state with the invariant. -/
theorem forLoopM_inv {σ : Type} (P : Nat → σ → Prop) (lo hi : Nat)
    (body : Nat → σ → Except Error σ) (s : σ) (hle : lo ≤ hi) (h0 : P lo s)
    (hstep : ∀ k s, lo ≤ k → k < hi → P k s → ∃ t, body k s = .ok t ∧ P (k + 1) t) :
    ∃ t, forLoopM lo hi body s = .ok t ∧ P hi t := by
  obtain ⟨d, rfl⟩ := Nat.exists_eq_add_of_le hle
  induction d with
  | zero => exact ⟨s, forLoopM_nil _ _ _ _ (by omega), h0⟩
  | succ d ih =>
    obtain ⟨t, ht, hP⟩ := ih (by omega) (fun k s h1 h2 => hstep k s h1 (by omega))
    obtain ⟨u, hu, hQ⟩ := hstep (lo + d) t (by omega) (by omega) hP
    refine ⟨u, ?_, hQ⟩
    rw [← Nat.add_assoc, forLoopM_succ _ _ _ _ (by omega), ht]
    exact hu

/-! ## Buffer reads and writes -/

namespace SquareMat

theorem rd_set_eq (d : List ℚ) (p : Nat) (v : ℚ) (h : p < d.length) : rd (d.set p v) p = v := by
  simp [rd, List.getD_eq_getElem?_getD, List.getElem?_set, h]

theorem rd_set_ne (d : List ℚ) (p q : Nat) (v : ℚ) (h : p ≠ q) :
    rd (d.set p v) q = rd d q := by
  simp [rd, List.getD_eq_getElem?_getD, List.getElem?_set, h]

theorem rd_set (d : List ℚ) (p q : Nat) (v : ℚ) (h : p < d.length) :
    rd (d.set p v) q = if p = q then v else rd d q := by
  by_cases e : p = q
  · subst e; simp [rd_set_eq _ _ _ h]
  · simp [e, rd_set_ne _ _ _ _ e]

theorem idx_lt {n i j : Nat} (hi : i < n) (hj : j < n) : i * n + j < n * n := by
  have : (i + 1) * n ≤ n * n := Nat.mul_le_mul_right n hi
  have e : (i + 1) * n = i * n + n := Nat.succ_mul i n
  omega

theorem idx_inj {n i j i2 j2 : Nat} (hj : j < n) (hj2 : j2 < n)
    (h : i * n + j = i2 * n + j2) : i = i2 ∧ j = j2 := by
  have hn : 0 < n := by omega
  have h1 : (i * n + j) / n = i := by
    rw [Nat.add_comm, Nat.add_mul_div_right _ _ hn, Nat.div_eq_of_lt hj, Nat.zero_add]
  have h2 : (i2 * n + j2) / n = i2 := by
    rw [Nat.add_comm, Nat.add_mul_div_right _ _ hn, Nat.div_eq_of_lt hj2, Nat.zero_add]
  have e : i = i2 := by rw [← h1, ← h2, h]
  subst e
  exact ⟨rfl, by omega⟩

theorem idx_ne {n i j i2 j2 : Nat} (hj : j < n) (hj2 : j2 < n) (h : i ≠ i2 ∨ j ≠ j2) :
    i * n + j ≠ i2 * n + j2 := by
  intro e
  obtain ⟨e1, e2⟩ := idx_inj hj hj2 e
  rcases h with h | h
  · exact h e1
  · exact h e2

theorem rowPtr_ok {n row : Nat} (h : row < n) : rowPtr n row = .ok (row * n) := by
  simp [rowPtr, Nat.not_le.mpr h]
  rfl

theorem elem_ok {n : Nat} (buf : List ℚ) {i : Nat} (j : Nat) (h : i < n) :
    elem n buf i j = .ok (rd buf (i * n + j)) := by
  simp [elem, rowPtr_ok h]

/-- Two buffers of the same length with the same cells are equal. -/
theorem buf_ext (d e : List ℚ) (hl : d.length = e.length)
    (h : ∀ k, k < d.length → rd d k = rd e k) : d = e := by
  apply List.ext_getElem hl
  intro k h1 h2
  have := h k h1
  simpa [rd, List.getD_eq_getElem?_getD, List.getElem?_eq_getElem h1,
    List.getElem?_eq_getElem h2] using this

/-- Two buffers of order `n` with the same entries are equal. -/
theorem buf_ext_idx (n : Nat) (d e : List ℚ) (hd : d.length = n * n) (he : e.length = n * n)
    (h : ∀ i j, i < n → j < n → rd d (i * n + j) = rd e (i * n + j)) : d = e := by
  apply buf_ext d e (by rw [hd, he])
  intro k hk
  rw [hd] at hk
  have hn : 0 < n := by
    rcases Nat.eq_zero_or_pos n with h0 | h0
    · subst h0; simp at hk
    · exact h0
  have h1 : k / n < n := Nat.div_lt_of_lt_mul hk
  have h2 : k % n < n := Nat.mod_lt _ hn
  have e3 : k / n * n + k % n = k := by rw [Nat.mul_comm]; exact Nat.div_add_mod k n
  have := h (k / n) (k % n) h1 h2
  rwa [e3] at this

/-- A loop over the cells `0 .. m-1` that stores `f i` in cell `i`. -/
theorem cellLoop_spec (m : Nat) (f : Nat → ℚ) (body : Nat → List ℚ → List ℚ) (d : List ℚ)
    (hm : m ≤ d.length)
    (hb : ∀ i e, i < m → e.length = d.length → body i e = e.set i (f i)) :
    (forLoop 0 m body d).length = d.length ∧
      ∀ q, rd (forLoop 0 m body d) q = if q < m then f q else rd d q := by
  apply forLoop_inv (fun k e => e.length = d.length ∧ ∀ q, rd e q = if q < k then f q else rd d q)
    0 m body d (Nat.zero_le _)
  · simp
  · intro k e _ hk ⟨hl, hq⟩
    rw [hb k e hk hl]
    refine ⟨by simp [hl], fun q => ?_⟩
    rw [rd_set _ _ _ _ (by omega)]
    by_cases e1 : k = q
    · subst e1; simp
    · have : (q < k + 1) = (q < k) := by
        apply propext; constructor <;> intro h <;> omega
      simp [e1, this, hq]

theorem ctor_ok (n : Nat) (v : ℚ) (h : ¬ (n = 0 ∧ v ≠ 0)) :
    ctor n v = .ok ⟨n, List.replicate (n * n) v⟩ := by
  unfold ctor
  rw [if_neg h]
  by_cases hn : n = 0
  · subst hn; simp; rfl
  · rw [if_pos hn]
    have hs := cellLoop_spec (n * n) (fun _ => v) (fun i d => d.set i v) (alloc (n * n))
      (by simp [alloc]) (fun _ _ _ _ => rfl)
    have : forLoop 0 (n * n) (fun i d => d.set i v) (alloc (n * n)) = List.replicate (n * n) v := by
      apply buf_ext
      · rw [hs.1]; simp [alloc]
      · intro k hk
        rw [hs.1] at hk
        simp only [alloc, List.length_replicate] at hk
        rw [hs.2 k, if_pos hk]
        simp [rd, List.getD_eq_getElem?_getD, List.getElem?_replicate, hk]
    rw [this]; rfl

theorem ctor_zero (n : Nat) : ctor n 0 = .ok ⟨n, List.replicate (n * n) 0⟩ :=
  ctor_ok n 0 (by simp)

theorem rd_replicate_zero (m k : Nat) : rd (List.replicate m 0) k = 0 := by
  simp only [rd, List.getD_eq_getElem?_getD, List.getElem?_replicate]
  split <;> rfl

theorem copy_eq_self (M : SquareMat) (h : M.WF) : copy M = M := by
  unfold copy
  obtain ⟨n, d⟩ := M
  simp only [WF] at h
  by_cases hn : n = 0
  · subst hn
    simp at h
    simp [h]
  · simp only [hn, ne_eq, not_false_eq_true, ↓reduceIte, mk.injEq, true_and]
    have hs := cellLoop_spec (n * n) (fun i => rd d i) (fun i e => e.set i (rd d i))
      (alloc (n * n)) (by simp [alloc]) (fun _ _ _ _ => rfl)
    apply buf_ext
    · rw [hs.1, h]; simp [alloc]
    · intro k hk
      rw [hs.1] at hk
      simp only [alloc, List.length_replicate] at hk
      rw [hs.2 k, if_pos hk]

end SquareMat

/-! ## Scalar modulo -/

theorem fmod_sub_int (x y : ℚ) : ∃ z : ℤ, x - fmod x y = (z : ℚ) * y :=
  ⟨trunc (x / y), by unfold fmod; ring⟩

theorem fmod_range_pos (x y : ℚ) (hy : 0 < y) : -y < fmod x y ∧ fmod x y < y := by
  unfold fmod trunc
  have hxy : x / y * y = x := div_mul_cancel₀ x (ne_of_gt hy)
  split
  · have h1 := Int.floor_le (x / y)
    have h2 := Int.lt_floor_add_one (x / y)
    have h3 : (⌊x / y⌋ : ℚ) * y ≤ x / y * y := mul_le_mul_of_nonneg_right h1 (le_of_lt hy)
    have h4 : x / y * y < ((⌊x / y⌋ : ℚ) + 1) * y := mul_lt_mul_of_pos_right h2 hy
    rw [hxy] at h3 h4
    constructor <;> nlinarith
  · have h1 := Int.le_ceil (x / y)
    have h2 := Int.ceil_lt_add_one (x / y)
    have h3 : x / y * y ≤ (⌈x / y⌉ : ℚ) * y := mul_le_mul_of_nonneg_right h1 (le_of_lt hy)
    have h4 : (⌈x / y⌉ : ℚ) * y < (x / y + 1) * y := mul_lt_mul_of_pos_right h2 hy
    rw [add_mul, hxy] at h4
    rw [hxy] at h3
    constructor <;> nlinarith

theorem modCell_spec (x : ℚ) (m : ℤ) (hm : 0 < m) :
    0 ≤ modCell x m ∧ modCell x m < (m : ℚ) ∧ ∃ z : ℤ, x - modCell x m = (z : ℚ) * (m : ℚ) := by
  have hy : (0 : ℚ) < (m : ℚ) := by exact_mod_cast hm
  obtain ⟨h1, h2⟩ := fmod_range_pos x (m : ℚ) hy
  obtain ⟨z, hz⟩ := fmod_sub_int x (m : ℚ)
  unfold modCell
  split
  · refine ⟨by linarith, by linarith, z - 1, ?_⟩
    push_cast
    linarith
  · exact ⟨by linarith, h2, z, hz⟩

/-- What `operator%(const SquareMat&, int)` returns for a nonzero modulus. -/
theorem modInt_ok (M : SquareMat) (m : ℤ) (hm : m ≠ 0) :
    ∃ d, modInt M m = .ok ⟨M.n, d⟩ ∧ d.length = M.n * M.n ∧
      ∀ q, q < M.n * M.n → rd d q = modCell (rd M.data q) m := by
  have hs := cellLoop_spec (M.n * M.n) (fun q => modCell (rd M.data q) m)
    (fun i d =>
      let d := d.set i (fmod (rd M.data i) (m : ℚ))
      if rd d i < 0 then d.set i (rd d i + (m : ℚ)) else d)
    (List.replicate (M.n * M.n) 0) (by simp)
    (by
      intro i e hi he
      have hi2 : i < e.length := by rw [he]; simpa using hi
      simp only [rd_set_eq _ _ _ hi2, modCell]
      split
      · simp
      · rfl)
  refine ⟨forLoop 0 (M.n * M.n) (fun i d =>
      let d := d.set i (fmod (rd M.data i) (m : ℚ))
      if rd d i < 0 then d.set i (rd d i + (m : ℚ)) else d) (List.replicate (M.n * M.n) 0),
    ?_, ?_, ?_⟩
  · simp only [modInt, hm, order, ctor_zero]
    rfl
  · simpa using hs.1
  · intro q hq
    rw [hs.2 q, if_pos hq]

/-! ## Matrix product -/

theorem ok_bind {α β : Type} (a : α) (f : α → Except Error β) :
    (Except.ok a : Except Error α) >>= f = f a := rfl

theorem mat_apply (n : Nat) (d : List ℚ) (i j : Fin n) :
    mat n d i j = rd d (i.val * n + j.val) := rfl

theorem mat_ext (n : Nat) (d e : List ℚ) (hd : d.length = n * n) (he : e.length = n * n)
    (h : mat n d = mat n e) : d = e := by
  apply buf_ext_idx n d e hd he
  intro i j hi hj
  have := congrFun (congrFun h ⟨i, hi⟩) ⟨j, hj⟩
  simpa [mat_apply] using this

theorem mul_jloop (n i k : Nat) (a : ℚ) (B : List ℚ) (hi : i < n) (hk : k < n) (d : List ℚ)
    (hd : d.length = n * n) :
    ∃ t, forLoopM 0 n (fun j d => do
        let bkj ← elem n B k j
        let p ← rowPtr n i
        pure (d.set (p + j) (rd d (p + j) + a * bkj))) d = .ok t ∧ t.length = n * n ∧
      ∀ r c, r < n → c < n → rd t (r * n + c) =
        if r = i then rd d (r * n + c) + a * rd B (k * n + c) else rd d (r * n + c) := by
  have := forLoopM_inv (fun j t => t.length = n * n ∧ ∀ r c, r < n → c < n →
      rd t (r * n + c) =
        if r = i ∧ c < j then rd d (r * n + c) + a * rd B (k * n + c) else rd d (r * n + c))
    0 n (fun j d => do
        let bkj ← elem n B k j
        let p ← rowPtr n i
        pure (d.set (p + j) (rd d (p + j) + a * bkj))) d (Nat.zero_le _) ⟨hd, by simp⟩
    (by
      intro j t _ hj ⟨hl, hq⟩
      refine ⟨t.set (i * n + j) (rd t (i * n + j) + a * rd B (k * n + j)), ?_, ?_, ?_⟩
      · simp only [elem_ok B j hk, rowPtr_ok hi, ok_bind]; rfl
      · simpa using hl
      · intro r c hr hc
        have hlt : i * n + j < t.length := by rw [hl]; exact idx_lt hi hj
        rw [rd_set _ _ _ _ hlt]
        by_cases e : r = i ∧ c = j
        · obtain ⟨rfl, rfl⟩ := e
          simp [hq r c hr hc]
        · have hne : i * n + j ≠ r * n + c := by
            apply idx_ne hj hc
            by_contra hcon
            push_neg at hcon
            exact e ⟨hcon.1.symm, hcon.2.symm⟩
          rw [if_neg hne, hq r c hr hc]
          by_cases e1 : r = i
          · subst e1
            have hcj : c ≠ j := fun h => e ⟨rfl, h⟩
            have : (c < j + 1) = (c < j) := by
              apply propext; constructor <;> intro h <;> omega
            simp [this]
          · simp [e1])
  obtain ⟨t, ht, hl, hq⟩ := this
  refine ⟨t, ht, hl, fun r c hr hc => ?_⟩
  rw [hq r c hr hc]
  simp [hc]

theorem mul_kloop (n i : Nat) (A B : List ℚ) (hi : i < n) (d : List ℚ)
    (hd : d.length = n * n) :
    ∃ t, forLoopM 0 n (fun k d => do
        let aik ← elem n A i k
        forLoopM 0 n (fun j d => do
          let bkj ← elem n B k j
          let p ← rowPtr n i
          pure (d.set (p + j) (rd d (p + j) + aik * bkj))) d) d = .ok t ∧ t.length = n * n ∧
      ∀ r c, r < n → c < n → rd t (r * n + c) =
        if r = i then rd d (r * n + c) +
          ∑ k in Finset.range n, rd A (i * n + k) * rd B (k * n + c) else rd d (r * n + c) := by
  apply forLoopM_inv (fun k t => t.length = n * n ∧ ∀ r c, r < n → c < n →
      rd t (r * n + c) =
        if r = i then rd d (r * n + c) +
          ∑ k2 in Finset.range k, rd A (i * n + k2) * rd B (k2 * n + c) else rd d (r * n + c))
    0 n _ d (Nat.zero_le _) ⟨hd, by simp⟩
  intro k t _ hk ⟨hl, hq⟩
  obtain ⟨u, hu, hul, huq⟩ := mul_jloop n i k (rd A (i * n + k)) B hi hk t hl
  refine ⟨u, ?_, hul, ?_⟩
  · simp only [elem_ok A k hi, ok_bind]
    exact hu
  · intro r c hr hc
    rw [huq r c hr hc, hq r c hr hc]
    by_cases e : r = i
    · simp [e, Finset.sum_range_succ, add_assoc]
    · simp [e]

theorem mul_iloop (n : Nat) (A B : List ℚ) (d : List ℚ) (hd : d.length = n * n) :
    ∃ t, forLoopM 0 n (fun i d =>
      forLoopM 0 n (fun k d => do
        let aik ← elem n A i k
        forLoopM 0 n (fun j d => do
          let bkj ← elem n B k j
          let p ← rowPtr n i
          pure (d.set (p + j) (rd d (p + j) + aik * bkj))) d) d) d = .ok t ∧ t.length = n * n ∧
      ∀ r c, r < n → c < n → rd t (r * n + c) =
        rd d (r * n + c) + ∑ k in Finset.range n, rd A (r * n + k) * rd B (k * n + c) := by
  have := forLoopM_inv (fun i t => t.length = n * n ∧ ∀ r c, r < n → c < n →
      rd t (r * n + c) =
        if r < i then rd d (r * n + c) +
          ∑ k in Finset.range n, rd A (r * n + k) * rd B (k * n + c) else rd d (r * n + c))
    0 n (fun i d =>
      forLoopM 0 n (fun k d => do
        let aik ← elem n A i k
        forLoopM 0 n (fun j d => do
          let bkj ← elem n B k j
          let p ← rowPtr n i
          pure (d.set (p + j) (rd d (p + j) + aik * bkj))) d) d) d (Nat.zero_le _) ⟨hd, by simp⟩
    (by
      intro i t _ hi ⟨hl, hq⟩
      obtain ⟨u, hu, hul, huq⟩ := mul_kloop n i A B hi t hl
      refine ⟨u, hu, hul, ?_⟩
      intro r c hr hc
      rw [huq r c hr hc, hq r c hr hc]
      by_cases e : r = i
      · subst e; simp
      · have : (r < i + 1) = (r < i) := by
          apply propext; constructor <;> intro h <;> omega
        simp [e, this])
  obtain ⟨t, ht, hl, hq⟩ := this
  refine ⟨t, ht, hl, fun r c hr hc => ?_⟩
  rw [hq r c hr hc]
  simp [hr]

/-- The product of two matrices of the same order: it succeeds, and cell `(r, c)` of the
result is the sum over `k` of `A[r][k] * B[k][c]`. -/
theorem mul_ok (A B : SquareMat) (h : A.n = B.n) :
    ∃ d, mul A B = .ok ⟨A.n, d⟩ ∧ d.length = A.n * A.n ∧
      ∀ r c, r < A.n → c < A.n → rd d (r * A.n + c) =
        ∑ k in Finset.range A.n, rd A.data (r * A.n + k) * rd B.data (k * A.n + c) := by
  obtain ⟨t, ht, hl, hq⟩ := mul_iloop A.n A.data B.data (List.replicate (A.n * A.n) 0) (by simp)
  refine ⟨t, ?_, hl, ?_⟩
  · simp only [mul, ensure_same, order, h, ne_eq, not_true_eq_false, ↓reduceIte, ctor_zero]
    rw [← h]
    simp only [pure_bind, ok_bind, ht]
    rfl
  · intro r c hr hc
    rw [hq r c hr hc, rd_replicate_zero, zero_add]

theorem mul_err (A B : SquareMat) (h : A.n ≠ B.n) : mul A B = .error Error.invalid_argument := by
  simp only [mul, ensure_same, order, h, ne_eq, not_false_eq_true, ↓reduceIte]
  rfl

/-- The product computes the matrix product of the abstract matrices. -/
theorem mul_mat (A B : SquareMat) (h : A.n = B.n) :
    ∃ d, mul A B = .ok ⟨A.n, d⟩ ∧ d.length = A.n * A.n ∧
      mat A.n d = mat A.n A.data * mat A.n B.data := by
  obtain ⟨d, hd, hl, hq⟩ := mul_ok A B h
  refine ⟨d, hd, hl, ?_⟩
  ext i j
  rw [Matrix.mul_apply, mat_apply, hq _ _ i.isLt j.isLt, Finset.sum_range]
  rfl

/-! ## Power -/

theorem identity_loop (n : Nat) :
    (forLoop 0 n (fun i d => d.set (i * n + i) 1) (List.replicate (n * n) (0 : ℚ))).length = n * n ∧
    ∀ r c, r < n → c < n →
      rd (forLoop 0 n (fun i d => d.set (i * n + i) 1) (List.replicate (n * n) 0)) (r * n + c) =
        if r = c then 1 else 0 := by
  have := forLoop_inv (fun k t => t.length = n * n ∧ ∀ r c, r < n → c < n →
      rd t (r * n + c) = if r = c ∧ r < k then 1 else 0)
    0 n (fun i d => d.set (i * n + i) 1) (List.replicate (n * n) 0) (Nat.zero_le _)
    ⟨by simp, by intro r c _ _; simp [rd_replicate_zero]⟩
    (by
      intro k t _ hk ⟨hl, hq⟩
      refine ⟨by simpa using hl, ?_⟩
      intro r c hr hc
      have hlt : k * n + k < t.length := by rw [hl]; exact idx_lt hk hk
      rw [rd_set _ _ _ _ hlt]
      by_cases e : k = r ∧ k = c
      · obtain ⟨rfl, rfl⟩ := e
        simp
      · have hne : k * n + k ≠ r * n + c := by
          apply idx_ne hk hc
          by_contra hcon
          push_neg at hcon
          exact e hcon
        rw [if_neg hne, hq r c hr hc]
        by_cases e1 : r = c
        · subst e1
          have : r ≠ k := fun h => e ⟨h.symm, h.symm⟩
          have : (r < k + 1) = (r < k) := by
            apply propext; constructor <;> intro h <;> omega
          simp [this]
        · simp [e1])
  refine ⟨this.1, fun r c hr hc => ?_⟩
  rw [this.2 r c hr hc]
  simp [hr]

/-- The zeroth power: the buffer of the identity. -/
theorem pow_at_zero (A : SquareMat) (hn : A.n ≠ 0) :
    pow A 0 = .ok ⟨A.n, forLoop 0 A.n (fun i d => d.set (i * A.n + i) 1)
      (List.replicate (A.n * A.n) 0)⟩ := by
  rw [pow]
  simp only [hn, ↓reduceIte, ↓reduceDIte, ctor_zero]
  rfl

theorem pow_at_one (A : SquareMat) (hn : A.n ≠ 0) : pow A 1 = .ok (copy A) := by
  rw [pow]
  simp only [hn, ↓reduceIte, one_ne_zero, ↓reduceDIte]
  rfl

theorem pow_step (A : SquareMat) (k : Nat) (hn : A.n ≠ 0) (hk : 2 ≤ k) :
    pow A k = (do
      let half ← pow A (k / 2)
      let res ← mul half half
      if k % 2 ≠ 0 then do
        let t ← mul res A
        pure (copy t)
      else pure res) := by
  rw [pow]
  have h0 : k ≠ 0 := by omega
  have h1 : k ≠ 1 := by omega
  simp only [hn, h0, h1, ↓reduceIte, ↓reduceDIte]

theorem copy_spec (M : SquareMat) (hn : M.n ≠ 0) :
    ∃ d, copy M = ⟨M.n, d⟩ ∧ d.length = M.n * M.n ∧ ∀ q, q < M.n * M.n → rd d q = rd M.data q := by
  have hs := cellLoop_spec (M.n * M.n) (fun i => rd M.data i) (fun i e => e.set i (rd M.data i))
    (alloc (M.n * M.n)) (by simp [alloc]) (fun _ _ _ _ => rfl)
  refine ⟨forLoop 0 (M.n * M.n) (fun i e => e.set i (rd M.data i)) (alloc (M.n * M.n)), ?_, ?_, ?_⟩
  · simp [copy, hn]
  · simpa [alloc] using hs.1
  · intro q hq
    rw [hs.2 q, if_pos hq]

theorem copy_mat (M : SquareMat) (hn : M.n ≠ 0) :
    ∃ d, copy M = ⟨M.n, d⟩ ∧ d.length = M.n * M.n ∧ mat M.n d = mat M.n M.data := by
  obtain ⟨d, h1, h2, h3⟩ := copy_spec M hn
  refine ⟨d, h1, h2, ?_⟩
  ext i j
  rw [mat_apply, mat_apply, h3 _ (idx_lt i.isLt j.isLt)]

theorem identity_mat (n : Nat) :
    mat n (forLoop 0 n (fun i d => d.set (i * n + i) 1) (List.replicate (n * n) 0)) = 1 := by
  ext i j
  rw [mat_apply, (identity_loop n).2 _ _ i.isLt j.isLt, Matrix.one_apply]
  simp [Fin.ext_iff]

/-- The power by recursive halving succeeds on a nonempty matrix and computes the `k`-fold
product of the abstract matrix. -/
theorem pow_mat (A : SquareMat) (hn : A.n ≠ 0) (k : Nat) :
    ∃ d, pow A k = .ok ⟨A.n, d⟩ ∧ d.length = A.n * A.n ∧
      mat A.n d = (mat A.n A.data) ^ k := by
  induction k using Nat.strong_induction_on with
  | _ k ih =>
    by_cases h0 : k = 0
    · subst h0
      exact ⟨_, pow_at_zero A hn, (identity_loop A.n).1, by rw [identity_mat, pow_zero]⟩
    by_cases h1 : k = 1
    · subst h1
      obtain ⟨d, e1, e2, e3⟩ := copy_mat A hn
      exact ⟨d, by rw [pow_at_one A hn, e1], e2, by rw [e3, pow_one]⟩
    obtain ⟨dh, eh, lh, mh⟩ := ih (k / 2) (by omega)
    obtain ⟨dr, er, lr, mr⟩ := mul_mat ⟨A.n, dh⟩ ⟨A.n, dh⟩ rfl
    simp only at er lr mr
    rw [pow_step A k hn (by omega), eh, ok_bind, er, ok_bind]
    by_cases hodd : k % 2 ≠ 0
    · rw [if_pos hodd]
      obtain ⟨dt, et, lt, mt⟩ := mul_mat ⟨A.n, dr⟩ A rfl
      simp only at et lt mt
      obtain ⟨dc, ec, lc, mc⟩ := copy_mat ⟨A.n, dt⟩ hn
      simp only at ec lc mc
      refine ⟨dc, by rw [et, ok_bind, ec]; rfl, lc, ?_⟩
      rw [mc, mt, mr, mh, ← pow_add, ← pow_succ]
      congr 1
      omega
    · rw [if_neg hodd]
      refine ⟨dr, rfl, lr, ?_⟩
      rw [mr, mh, ← pow_add]
      congr 1
      omega

/-! ## Determinant: the inner loops -/

theorem forLoopM_pure {σ : Type} (lo hi : Nat) (body : Nat → σ → Except Error σ)
    (g : Nat → σ → σ) (s : σ) (hle : lo ≤ hi)
    (h : ∀ k s, lo ≤ k → k < hi → body k s = .ok (g k s)) :
    forLoopM lo hi body s = .ok (forLoop lo hi g s) := by
  obtain ⟨t, ht, hP⟩ := forLoopM_inv (fun k t => t = forLoop lo k g s) lo hi body s hle
    (by simp [forLoop_nil])
    (by
      intro k t h1 h2 hP
      refine ⟨g k t, h k t h1 h2, ?_⟩
      show g k t = forLoop lo (k + 1) g s
      rw [forLoop_succ _ _ _ _ h1, hP])
  rw [ht, hP]

theorem findMaxRow_ok (n : Nat) (A : List ℚ) (i : Nat) (hi : i < n) :
    ∃ r, findMaxRow n A i = .ok r ∧ i ≤ r ∧ r < n ∧
      ((∀ j, i < j → j < n → |rd A (j * n + i)| ≤ |rd A (i * n + i)|) → r = i) := by
  have := forLoopM_inv (fun j r => i ≤ r ∧ r < n ∧
      ((∀ j2, i < j2 → j2 < j → |rd A (j2 * n + i)| ≤ |rd A (i * n + i)|) → r = i))
    (i + 1) n (fun j max_row => do
      let x ← elem n A j i
      let y ← elem n A max_row i
      pure (if |x| > |y| then j else max_row)) i (by omega)
    ⟨le_refl _, hi, fun _ => rfl⟩
    (by
      intro j r h1 h2 ⟨hr1, hr2, hr3⟩
      refine ⟨if |rd A (j * n + i)| > |rd A (r * n + i)| then j else r, ?_, ?_, ?_, ?_⟩
      · simp only [elem_ok A i h2, elem_ok A i hr2, ok_bind]; rfl
      · split <;> omega
      · split <;> omega
      · intro hall
        have hr : r = i := hr3 (fun j2 a b => hall j2 a (by omega))
        subst hr
        have := hall j (by omega) (by omega)
        rw [if_neg (not_lt.mpr this)])
  obtain ⟨r, h1, h2, h3, h4⟩ := this
  exact ⟨r, h1, h2, h3, fun hall => h4 (fun j a _ => hall j a (by omega))⟩

theorem swapIdx_lt {n i m r : Nat} (hi : i < n) (hm : m < n) (hr : r < n) :
    swapIdx i m r < n := by
  unfold swapIdx; split
  · exact hm
  · split
    · exact hi
    · exact hr

/-- The exchange loop puts row `swapIdx i m r` of the old buffer at row `r`. -/
theorem swap_loop_spec (n i m : Nat) (A : List ℚ) (hi : i < n) (hm : m < n)
    (hA : A.length = n * n) :
    (forLoop 0 n (fun k A =>
      (A.set (i * n + k) (rd A (m * n + k))).set (m * n + k) (rd A (i * n + k))) A).length
        = n * n ∧
    ∀ r c, r < n → c < n →
      rd (forLoop 0 n (fun k A =>
        (A.set (i * n + k) (rd A (m * n + k))).set (m * n + k) (rd A (i * n + k))) A)
        (r * n + c) = rd A (swapIdx i m r * n + c) := by
  have := forLoop_inv (fun k t => t.length = n * n ∧ ∀ r c, r < n → c < n →
      rd t (r * n + c) = if c < k then rd A (swapIdx i m r * n + c) else rd A (r * n + c))
    0 n (fun k A =>
      (A.set (i * n + k) (rd A (m * n + k))).set (m * n + k) (rd A (i * n + k))) A
    (Nat.zero_le _) ⟨hA, by simp⟩
    (by
      intro k t _ hk ⟨hl, hq⟩
      refine ⟨by simpa using hl, ?_⟩
      intro r c hr hc
      have hlt1 : i * n + k < t.length := by rw [hl]; exact idx_lt hi hk
      have hlt2 : m * n + k < (t.set (i * n + k) (rd t (m * n + k))).length := by
        rw [List.length_set, hl]; exact idx_lt hm hk
      rw [rd_set _ _ _ _ hlt2, rd_set _ _ _ _ hlt1]
      have hik := hq i k hi hk
      have hmk := hq m k hm hk
      simp only [lt_irrefl, ↓reduceIte] at hik hmk
      by_cases e1 : r = m ∧ c = k
      · obtain ⟨rfl, rfl⟩ := e1
        simp only [↓reduceIte, hik, lt_add_one]
        unfold swapIdx
        by_cases e : r = i
        · simp [e]
        · simp [e]
      · have hne1 : m * n + k ≠ r * n + c := by
          apply idx_ne hk hc
          by_contra hcon
          push_neg at hcon
          exact e1 ⟨hcon.1.symm, hcon.2.symm⟩
        rw [if_neg hne1]
        by_cases e2 : r = i ∧ c = k
        · obtain ⟨rfl, rfl⟩ := e2
          simp only [↓reduceIte, hmk, lt_add_one]
          simp [swapIdx]
        · have hne2 : i * n + k ≠ r * n + c := by
            apply idx_ne hk hc
            by_contra hcon
            push_neg at hcon
            exact e2 ⟨hcon.1.symm, hcon.2.symm⟩
          rw [if_neg hne2, hq r c hr hc]
          by_cases e3 : c = k
          · subst e3
            have h1 : r ≠ i := fun h => e2 ⟨h, rfl⟩
            have h2 : r ≠ m := fun h => e1 ⟨h, rfl⟩
            simp [swapIdx, h1, h2]
          · have : (c < k + 1) = (c < k) := by
              apply propext; constructor <;> intro h <;> omega
            simp [this])
  refine ⟨this.1, fun r c hr hc => ?_⟩
  rw [this.2 r c hr hc]
  simp [hc]

theorem swapRowsLoop_ok (n i m : Nat) (A : List ℚ) (hi : i < n) (hm : m < n) :
    swapRowsLoop n A i m = .ok (swap_rows ⟨n, A⟩ i m).data := by
  unfold swapRowsLoop swap_rows
  apply forLoopM_pure _ _ _ _ _ (Nat.zero_le _)
  intro k s _ _
  simp only [rowPtr_ok hi, rowPtr_ok hm, ok_bind]
  rfl

theorem elim_kloop (n i j : Nat) (f : ℚ) (A : List ℚ) (hi : i < n) (hj : j < n) (hij : i ≠ j)
    (hA : A.length = n * n) :
    ∃ t, forLoopM i n (fun k A => do
        let pj ← rowPtr n j
        let aik ← elem n A i k
        pure (A.set (pj + k) (rd A (pj + k) - f * aik))) A = .ok t ∧ t.length = n * n ∧
      ∀ r c, r < n → c < n → rd t (r * n + c) =
        if r = j ∧ i ≤ c then rd A (r * n + c) - f * rd A (i * n + c) else rd A (r * n + c) := by
  have := forLoopM_inv (fun k t => t.length = n * n ∧ ∀ r c, r < n → c < n →
      rd t (r * n + c) =
        if r = j ∧ i ≤ c ∧ c < k then rd A (r * n + c) - f * rd A (i * n + c)
        else rd A (r * n + c))
    i n (fun k A => do
        let pj ← rowPtr n j
        let aik ← elem n A i k
        pure (A.set (pj + k) (rd A (pj + k) - f * aik))) A (le_of_lt hi)
    ⟨hA, by
      intro r c _ _
      have : ¬ (r = j ∧ i ≤ c ∧ c < i) := by omega
      rw [if_neg this]⟩
    (by
      intro k t hk1 hk2 ⟨hl, hq⟩
      refine ⟨t.set (j * n + k) (rd t (j * n + k) - f * rd t (i * n + k)), ?_, ?_, ?_⟩
      · simp only [elem_ok t k hi, rowPtr_ok hj, ok_bind]; rfl
      · simpa using hl
      · intro r c hr hc
        have hlt : j * n + k < t.length := by rw [hl]; exact idx_lt hj hk2
        rw [rd_set _ _ _ _ hlt]
        have hik := hq i k hi hk2
        have hjk := hq j k hj hk2
        have n1 : ¬ (i = j ∧ i ≤ k ∧ k < k) := by omega
        have n2 : ¬ (j = j ∧ i ≤ k ∧ k < k) := by omega
        rw [if_neg n1] at hik
        rw [if_neg n2] at hjk
        by_cases e : r = j ∧ c = k
        · obtain ⟨rfl, rfl⟩ := e
          have p1 : r = r ∧ i ≤ c ∧ c < c + 1 := ⟨rfl, hk1, by omega⟩
          rw [if_pos rfl, if_pos p1, hik, hjk]
        · have hne : j * n + k ≠ r * n + c := by
            apply idx_ne hk2 hc
            by_contra hcon
            push_neg at hcon
            exact e ⟨hcon.1.symm, hcon.2.symm⟩
          rw [if_neg hne, hq r c hr hc]
          have : (r = j ∧ i ≤ c ∧ c < k + 1) = (r = j ∧ i ≤ c ∧ c < k) := by
            apply propext
            constructor
            · rintro ⟨a, b, c1⟩
              refine ⟨a, b, ?_⟩
              have : c ≠ k := fun h => e ⟨a, h⟩
              omega
            · rintro ⟨a, b, c1⟩
              exact ⟨a, b, by omega⟩
          simp only [this])
  obtain ⟨t, ht, hl, hq⟩ := this
  refine ⟨t, ht, hl, fun r c hr hc => ?_⟩
  rw [hq r c hr hc]
  have : (r = j ∧ i ≤ c ∧ c < n) = (r = j ∧ i ≤ c) := by
    apply propext
    constructor
    · rintro ⟨a, b, _⟩; exact ⟨a, b⟩
    · rintro ⟨a, b⟩; exact ⟨a, b, hc⟩
  simp only [this]

/-- The elimination of stage `i`: every row `r > i` loses `A[r][i] / A[i][i]` times row `i`
in the columns `c >= i`; nothing else changes. -/
theorem eliminate_ok (n i : Nat) (A : List ℚ) (hi : i < n) (hA : A.length = n * n) :
    ∃ t, eliminate n A i = .ok t ∧ t.length = n * n ∧
      ∀ r c, r < n → c < n → rd t (r * n + c) =
        if i < r ∧ i ≤ c then
          rd A (r * n + c) - rd A (r * n + i) / rd A (i * n + i) * rd A (i * n + c)
        else rd A (r * n + c) := by
  have := forLoopM_inv (fun j t => t.length = n * n ∧ ∀ r c, r < n → c < n →
      rd t (r * n + c) =
        if i < r ∧ r < j ∧ i ≤ c then
          rd A (r * n + c) - rd A (r * n + i) / rd A (i * n + i) * rd A (i * n + c)
        else rd A (r * n + c))
    (i + 1) n (fun j A => do
      let x ← elem n A j i
      let y ← elem n A i i
      let factor := x / y
      forLoopM i n (fun k A => do
        let pj ← rowPtr n j
        let aik ← elem n A i k
        pure (A.set (pj + k) (rd A (pj + k) - factor * aik))) A) A (by omega)
    ⟨hA, by
      intro r c _ _
      have : ¬ (i < r ∧ r < i + 1 ∧ i ≤ c) := by omega
      rw [if_neg this]⟩
    (by
      intro j t hj1 hj2 ⟨hl, hq⟩
      obtain ⟨u, hu, hul, huq⟩ := elim_kloop n i j (rd t (j * n + i) / rd t (i * n + i)) t hi hj2
        (by omega) hl
      refine ⟨u, ?_, hul, ?_⟩
      · simp only [elem_ok t i hj2, elem_ok t i hi, ok_bind]
        exact hu
      · intro r c hr hc
        rw [huq r c hr hc]
        have hrow_i : ∀ c2, c2 < n → rd t (i * n + c2) = rd A (i * n + c2) := by
          intro c2 hc2
          rw [hq i c2 hi hc2]
          have : ¬ (i < i ∧ i < j ∧ i ≤ c2) := by omega
          rw [if_neg this]
        have hrow_j : ∀ c2, c2 < n → rd t (j * n + c2) = rd A (j * n + c2) := by
          intro c2 hc2
          rw [hq j c2 hj2 hc2]
          have : ¬ (i < j ∧ j < j ∧ i ≤ c2) := by omega
          rw [if_neg this]
        by_cases e : r = j ∧ i ≤ c
        · obtain ⟨rfl, hic⟩ := e
          have p1 : r = r ∧ i ≤ c := ⟨rfl, hic⟩
          have p2 : i < r ∧ r < r + 1 ∧ i ≤ c := ⟨by omega, by omega, hic⟩
          rw [if_pos p1, if_pos p2, hrow_j c hc, hrow_j i hi, hrow_i i hi, hrow_i c hc]
        · rw [if_neg e, hq r c hr hc]
          have : (i < r ∧ r < j + 1 ∧ i ≤ c) = (i < r ∧ r < j ∧ i ≤ c) := by
            apply propext
            constructor
            · rintro ⟨a, b, c1⟩
              refine ⟨a, ?_, c1⟩
              have : r ≠ j := fun h => e ⟨h, c1⟩
              omega
            · rintro ⟨a, b, c1⟩
              exact ⟨a, by omega, c1⟩
          simp only [this])
  obtain ⟨t, ht, hl, hq⟩ := this
  refine ⟨t, ht, hl, fun r c hr hc => ?_⟩
  rw [hq r c hr hc]
  have : (i < r ∧ r < n ∧ i ≤ c) = (i < r ∧ i ≤ c) := by
    apply propext
    constructor
    · rintro ⟨a, _, b⟩; exact ⟨a, b⟩
    · rintro ⟨a, b⟩; exact ⟨a, hr, b⟩
  simp only [this]

/-! ## Determinant: one stage -/

/-- One pass of the outer loop, spelled out: the pivot row `m`, the buffer `A1` after the
exchange, the pivot `p`, and the buffer after the elimination. -/
theorem detStage_spec (n i : Nat) (A : List ℚ) (dv : ℚ) (hi : i < n) (hA : A.length = n * n) :
    ∃ m A1, i ≤ m ∧ m < n ∧
      ((∀ j, i < j → j < n → |rd A (j * n + i)| ≤ |rd A (i * n + i)|) → m = i) ∧
      A1.length = n * n ∧
      (∀ r c, r < n → c < n → rd A1 (r * n + c) = rd A (swapIdx i m r * n + c)) ∧
      (|rd A1 (i * n + i)| < EPS → detStage n i A dv = .ok (rd A1 (i * n + i), none)) ∧
      (¬ |rd A1 (i * n + i)| < EPS → ∃ A2, A2.length = n * n ∧
        (∀ r c, r < n → c < n → rd A2 (r * n + c) =
          if i < r ∧ i ≤ c then
            rd A1 (r * n + c) - rd A1 (r * n + i) / rd A1 (i * n + i) * rd A1 (i * n + c)
          else rd A1 (r * n + c)) ∧
        detStage n i A dv = .ok (rd A1 (i * n + i),
          some (A2, (if i ≠ m then dv * (-1) else dv) * rd A2 (i * n + i)))) := by
  obtain ⟨m, hfind, hm, hm1, hm3⟩ := findMaxRow_ok n A i hi
  have key : ∀ A1 : List ℚ, ∀ d1 : ℚ, A1.length = n * n →
      (do
        let (A, det) ← (Except.ok (A1, d1) : Except Error (List ℚ × ℚ))
        let p ← elem n A i i
        if |p| < EPS then pure (p, none)
        else do
          let A ← eliminate n A i
          let q ← elem n A i i
          pure (p, some (A, det * q)) : Except Error (ℚ × Option (List ℚ × ℚ))) =
        detStage n i A dv →
      (|rd A1 (i * n + i)| < EPS → detStage n i A dv = .ok (rd A1 (i * n + i), none)) ∧
      (¬ |rd A1 (i * n + i)| < EPS → ∃ A2, A2.length = n * n ∧
        (∀ r c, r < n → c < n → rd A2 (r * n + c) =
          if i < r ∧ i ≤ c then
            rd A1 (r * n + c) - rd A1 (r * n + i) / rd A1 (i * n + i) * rd A1 (i * n + c)
          else rd A1 (r * n + c)) ∧
        detStage n i A dv = .ok (rd A1 (i * n + i), some (A2, d1 * rd A2 (i * n + i)))) := by
    intro A1 d1 hA1 heq
    rw [← heq]
    simp only [ok_bind, elem_ok A1 i hi]
    constructor
    · intro hp
      rw [if_pos hp]; rfl
    · intro hp
      rw [if_neg hp]
      obtain ⟨A2, e1, e2, e3⟩ := eliminate_ok n i A1 hi hA1
      refine ⟨A2, e2, e3, ?_⟩
      simp only [e1, ok_bind, elem_ok A2 i hi]
      rfl
  by_cases hne : i ≠ m
  · have hs := swap_loop_spec n i m A hi hm1 hA
    refine ⟨m, (swap_rows ⟨n, A⟩ i m).data, hm, hm1, hm3, hs.1, hs.2, ?_⟩
    have := key (swap_rows ⟨n, A⟩ i m).data (dv * (-1)) hs.1 (by
      unfold detStage
      rw [hfind]
      simp only [ok_bind, if_pos hne, swapRowsLoop_ok n i m A hi hm1]
      rfl)
    simpa only [if_pos hne] using this
  · have hidm : ∀ r, swapIdx i m r = r := by
      intro r
      have : i = m := by_contra hne
      subst this
      unfold swapIdx
      split
      · next h => exact h.symm
      · rfl
    refine ⟨m, A, hm, hm1, hm3, hA, fun r c _ _ => by rw [hidm], ?_⟩
    have := key A dv hA (by
      unfold detStage
      rw [hfind]
      simp only [ok_bind, if_neg hne]
      rfl)
    simpa only [if_neg hne] using this

theorem EPS_pos : 0 < EPS := by unfold EPS; norm_num

theorem swapIdx_eq_swap (n i m r : Nat) (hi : i < n) (hm : m < n) (hr : r < n) :
    swapIdx i m r = ((Equiv.swap (⟨i, hi⟩ : Fin n) ⟨m, hm⟩) ⟨r, hr⟩).val := by
  unfold swapIdx
  rw [Equiv.swap_apply_def]
  by_cases e1 : r = i
  · subst e1; simp
  · by_cases e2 : r = m
    · subst e2; simp [e1, Fin.ext_iff]
    · simp [e1, e2, Fin.ext_iff]

/-- The exchange of rows `i` and `m` multiplies the determinant by `-1`, or by `1` when
`i = m`. -/
theorem det_after_swap (n i m : Nat) (A A1 : List ℚ) (hi : i < n) (hm : m < n)
    (h : ∀ r c, r < n → c < n → rd A1 (r * n + c) = rd A (swapIdx i m r * n + c)) :
    (mat n A1).det = (if i ≠ m then -1 else 1) * (mat n A).det := by
  have e : mat n A1 = (mat n A).submatrix (Equiv.swap (⟨i, hi⟩ : Fin n) ⟨m, hm⟩) id := by
    ext r c
    rw [Matrix.submatrix_apply, mat_apply, mat_apply, h _ _ r.isLt c.isLt,
      swapIdx_eq_swap n i m r.val hi hm r.isLt]
    rfl
  rw [e, Matrix.det_permute]
  by_cases hne : i ≠ m
  · rw [if_pos hne, Equiv.Perm.sign_swap (by simpa [Fin.ext_iff] using hne)]
    simp
  · have : i = m := by_contra hne
    subst this
    simp

/-- The elimination of stage `i` keeps the determinant when row `i` is zero before
column `i`. -/
theorem det_after_elim (n i : Nat) (A1 A2 : List ℚ) (hi : i < n)
    (hz : ∀ c, c < i → rd A1 (i * n + c) = 0)
    (h : ∀ r c, r < n → c < n → rd A2 (r * n + c) =
      if i < r ∧ i ≤ c then
        rd A1 (r * n + c) - rd A1 (r * n + i) / rd A1 (i * n + i) * rd A1 (i * n + c)
      else rd A1 (r * n + c)) :
    (mat n A2).det = (mat n A1).det := by
  apply Matrix.det_eq_of_forall_row_eq_smul_add_const
    (fun r : Fin n => if i < r.val then -(rd A1 (r.val * n + i) / rd A1 (i * n + i)) else 0)
    (⟨i, hi⟩ : Fin n)
  · simp
  · intro r c
    rw [mat_apply, mat_apply, mat_apply, h _ _ r.isLt c.isLt]
    by_cases e1 : i < r.val
    · by_cases e2 : i ≤ c.val
      · rw [if_pos ⟨e1, e2⟩, if_pos e1]; ring
      · have : ¬ (i < r.val ∧ i ≤ c.val) := fun h => e2 h.2
        rw [if_neg this, if_pos e1, hz c.val (by omega)]
        ring
    · have : ¬ (i < r.val ∧ i ≤ c.val) := fun h => e1 h.1
      rw [if_neg this, if_neg e1]
      ring

/-- One pass of the outer loop keeps the invariant, or returns early on a pivot below
`EPS`. -/
theorem stage_inv (n i : Nat) (D : ℚ) (A : List ℚ) (dv : ℚ) (hi : i < n)
    (hinv : StageInv n i D A dv) :
    ∃ p, (|p| < EPS ∧ detStage n i A dv = .ok (p, none)) ∨
      (EPS ≤ |p| ∧ ∃ A2 dv2, detStage n i A dv = .ok (p, some (A2, dv2)) ∧
        StageInv n (i + 1) D A2 dv2) := by
  obtain ⟨hA, hlow, s, hs1, hs2, hs3⟩ := hinv
  obtain ⟨m, A1, hm, hm1, _, hA1, hsw, hsmall, hbig⟩ := detStage_spec n i A dv hi hA
  refine ⟨rd A1 (i * n + i), ?_⟩
  by_cases hp : |rd A1 (i * n + i)| < EPS
  · exact Or.inl ⟨hp, hsmall hp⟩
  · right
    have hp2 : EPS ≤ |rd A1 (i * n + i)| := not_lt.mp hp
    have hp0 : rd A1 (i * n + i) ≠ 0 := by
      intro h0
      rw [h0, abs_zero] at hp2
      exact absurd EPS_pos (not_lt.mpr hp2)
    obtain ⟨A2, hA2, hel, hst⟩ := hbig hp
    refine ⟨hp2, A2, _, hst, hA2, ?_, ?_⟩
    · -- zero below the diagonal before column i + 1
      intro r c hr hc hcr
      have hcn : c < n := by omega
      rw [hel r c hr hcn]
      by_cases e : c = i
      · subst e
        rw [if_pos ⟨hcr, le_refl _⟩]
        field_simp
      · have hci : c < i := by omega
        have : ¬ (i < r ∧ i ≤ c) := by omega
        rw [if_neg this, hsw r c hr hcn]
        apply hlow _ _ (swapIdx_lt hi hm1 hr) hci
        unfold swapIdx
        split
        · omega
        · split <;> omega
    · have hdet1 := det_after_swap n i m A A1 hi hm1 hsw
      have hz : ∀ c, c < i → rd A1 (i * n + c) = 0 := by
        intro c hc
        rw [hsw i c hi (by omega)]
        apply hlow _ _ (swapIdx_lt hi hm1 hi) hc
        unfold swapIdx
        rw [if_pos rfl]
        omega
      have hdet2 := det_after_elim n i A1 A2 hi hz hel
      have hdiag : ∀ k, k < i → rd A2 (k * n + k) = rd A (k * n + k) := by
        intro k hk
        have : ¬ (i < k ∧ i ≤ k) := by omega
        rw [hel k k (by omega) (by omega), if_neg this, hsw k k (by omega) (by omega)]
        have : swapIdx i m k = k := by
          unfold swapIdx
          rw [if_neg (by omega), if_neg (by omega)]
        rw [this]
      refine ⟨(if i ≠ m then -1 else 1) * s, ?_, ?_, ?_⟩
      · by_cases hne : i ≠ m
        · rw [if_pos hne]; linarith
        · rw [if_neg hne]; linarith
      · rw [hdet2, hdet1, hs2]; ring
      · rw [Finset.prod_range_succ, Finset.prod_congr rfl (fun k hk => hdiag k (by simpa using hk)),
          hs3]
        by_cases hne : i ≠ m
        · rw [if_pos hne, if_pos hne]; ring
        · rw [if_neg hne, if_neg hne]; ring

/-- At the end of the outer loop the running value is the determinant `D`. -/
theorem StageInv_final (n : Nat) (D : ℚ) (A : List ℚ) (dv : ℚ) (hinv : StageInv n n D A dv) :
    dv = D := by
  obtain ⟨_, hlow, s, hs1, hs2, hs3⟩ := hinv
  have htri : (mat n A).BlockTriangular id := by
    intro r c hrc
    exact hlow r.val c.val r.isLt c.isLt hrc
  have hdet := Matrix.det_of_upperTriangular htri
  have hprod : ∏ k : Fin n, mat n A k k = ∏ k in Finset.range n, rd A (k * n + k) := by
    rw [← Fin.prod_univ_eq_prod_range (fun k => rd A (k * n + k)) n]
    rfl
  rw [hprod] at hdet
  rw [hs3, ← hdet, hs2, ← mul_assoc, hs1, one_mul]

/-! ## Determinant: the outer loop -/

theorem detLoop_zero (n i : Nat) (A : List ℚ) (dv : ℚ) :
    detLoop n 0 i A dv = .ok ([], some dv) := rfl

theorem detLoop_early (n steps i : Nat) (A : List ℚ) (dv p : ℚ)
    (h : detStage n i A dv = .ok (p, none)) :
    detLoop n (steps + 1) i A dv = .ok ([p], none) := by
  rw [detLoop, h]; rfl

theorem detLoop_next (n steps i : Nat) (A A2 : List ℚ) (dv dv2 p : ℚ) (ps : List ℚ)
    (r : Option ℚ) (h : detStage n i A dv = .ok (p, some (A2, dv2)))
    (h2 : detLoop n steps (i + 1) A2 dv2 = .ok (ps, r)) :
    detLoop n (steps + 1) i A dv = .ok (p :: ps, r) := by
  rw [detLoop, h]
  simp only [ok_bind, h2]
  rfl

/-- The outer loop from stage `i` on: it ends; when every pivot it tests is at least `EPS` in
absolute value it yields the determinant `D`, and when some pivot is below `EPS` it has
returned early. -/
theorem detLoop_inv (n : Nat) (D : ℚ) :
    ∀ steps i A dv, i + steps = n → StageInv n i D A dv →
      ∃ ps r, detLoop n steps i A dv = .ok (ps, r) ∧
        ((∀ p ∈ ps, EPS ≤ |p|) → r = some D) ∧
        ((∃ p ∈ ps, |p| < EPS) → r = none) := by
  intro steps
  induction steps with
  | zero =>
    intro i A dv hi hinv
    have e : i = n := by omega
    subst e
    refine ⟨[], some dv, detLoop_zero _ _ _ _, fun _ => ?_, ?_⟩
    · rw [StageInv_final i D A dv hinv]
    · rintro ⟨p, hp, _⟩
      simp at hp
  | succ steps ih =>
    intro i A dv hi hinv
    obtain ⟨p, h | h⟩ := stage_inv n i D A dv (by omega) hinv
    · obtain ⟨hp, hst⟩ := h
      refine ⟨[p], none, detLoop_early n steps i A dv p hst, fun hall => ?_, fun _ => rfl⟩
      have := hall p (by simp)
      exact absurd hp (not_lt.mpr this)
    · obtain ⟨hp, A2, dv2, hst, hinv2⟩ := h
      obtain ⟨ps, r, hl, h1, h2⟩ := ih (i + 1) A2 dv2 (by omega) hinv2
      refine ⟨p :: ps, r, detLoop_next n steps i A A2 dv dv2 p ps r hst hl, ?_, ?_⟩
      · intro hall
        exact h1 (fun q hq => hall q (List.mem_cons_of_mem _ hq))
      · rintro ⟨q, hq, hq2⟩
        rcases List.mem_cons.mp hq with e | e
        · subst e
          exact absurd hq2 (not_lt.mpr hp)
        · exact h2 ⟨q, e, hq2⟩

theorem StageInv_init (n : Nat) (A : List ℚ) (hA : A.length = n * n) :
    StageInv n 0 (mat n A).det A 1 := by
  refine ⟨hA, ?_, 1, by norm_num, by rw [one_mul], by simp⟩
  intro r c _ hc
  omega

theorem leibnizDet_eq (M : SquareMat) : leibnizDet M = (mat M.n M.data).det := by
  rw [Matrix.det_apply']
  rfl

/-- The run of `operator!` on a nonempty matrix: the loop ends with a list of pivots and an
optional accumulated product, which is the determinant of the working copy when all pivots
pass the `EPS` test and is absent when one fails it. -/
theorem det_run_copy (M : SquareMat) (hn : M.n ≠ 0) :
    ∃ ps r, detLoop M.n M.n 0 (copy M).data 1 = .ok (ps, r) ∧
      ((∀ p ∈ ps, EPS ≤ |p|) → r = some (mat M.n (copy M).data).det) ∧
      ((∃ p ∈ ps, |p| < EPS) → r = none) := by
  obtain ⟨d, h1, h2, _⟩ := copy_spec M hn
  rw [h1]
  exact detLoop_inv M.n (mat M.n d).det M.n 0 d 1 (by omega) (StageInv_init M.n d h2)

theorem det_run (M : SquareMat) (hwf : M.WF) (hn : M.n ≠ 0) :
    ∃ ps r, detLoop M.n M.n 0 (copy M).data 1 = .ok (ps, r) ∧
      ((∀ p ∈ ps, EPS ≤ |p|) → r = some (leibnizDet M)) ∧
      ((∃ p ∈ ps, |p| < EPS) → r = none) := by
  have e := copy_eq_self M hwf
  have := det_run_copy M hn
  rw [e] at this ⊢
  rwa [← leibnizDet_eq] at this

/-- The value `operator!` returns after an early return of its loop. -/
theorem det_of_run_none (M : SquareMat) (hn : M.n ≠ 0) (ps : List ℚ)
    (h : detLoop M.n M.n 0 (copy M).data 1 = .ok (ps, none)) : det M = .ok 0 := by
  unfold det
  rw [if_neg hn]
  simp only [pure_bind, h, ok_bind]
  rfl

/-- The value `operator!` returns after a full run of its loop. -/
theorem det_of_run_some (M : SquareMat) (hn : M.n ≠ 0) (ps : List ℚ) (d : ℚ)
    (h : detLoop M.n M.n 0 (copy M).data 1 = .ok (ps, some d)) :
    det M = .ok (if |d| < EPS then 0 else d) := by
  unfold det
  rw [if_neg hn]
  simp only [pure_bind, h, ok_bind]
  rfl

theorem det_total (M : SquareMat) (hn : M.n ≠ 0) : ∃ d, det M = .ok d := by
  obtain ⟨ps, r, h, _, _⟩ := det_run_copy M hn
  cases r with
  | none => exact ⟨_, det_of_run_none M hn ps h⟩
  | some d => exact ⟨_, det_of_run_some M hn ps d h⟩

theorem det_empty (M : SquareMat) (hn : M.n = 0) : det M = .error Error.logic_error := by
  unfold det
  rw [if_pos hn]
  rfl

/-- Without a cut-off, `operator!` returns the Leibniz determinant, which is then at least
`EPS` in absolute value. -/
theorem det_exact (M : SquareMat) (hwf : M.WF) (hn : M.n ≠ 0) (hc : noCutoff M) :
    det M = .ok (leibnizDet M) ∧ EPS ≤ |leibnizDet M| := by
  obtain ⟨ps, r, h, h1, _⟩ := det_run M hwf hn
  have hp : pivots M = ps := by simp only [pivots, h]
  have ha : accumulated M = r := by simp only [accumulated, h]
  obtain ⟨c1, c2⟩ := hc
  rw [hp] at c1
  rw [ha] at c2
  have hr := h1 c1
  have hE := c2 _ hr
  refine ⟨?_, hE⟩
  subst hr
  rw [det_of_run_some M hn ps _ h, if_neg (not_lt.mpr hE)]

/-- With a cut-off, `operator!` returns 0. -/
theorem det_cut (M : SquareMat) (hwf : M.WF) (hn : M.n ≠ 0) (hc : ¬ noCutoff M) :
    det M = .ok 0 := by
  obtain ⟨ps, r, h, h1, h2⟩ := det_run M hwf hn
  have hp : pivots M = ps := by simp only [pivots, h]
  have ha : accumulated M = r := by simp only [accumulated, h]
  unfold noCutoff at hc
  rw [hp, ha] at hc
  by_cases hall : ∀ p ∈ ps, EPS ≤ |p|
  · have hr := h1 hall
    have : ¬ (EPS ≤ |leibnizDet M|) := by
      intro hE
      apply hc
      refine ⟨hall, fun d hd => ?_⟩
      rw [hr] at hd
      cases hd
      exact hE
    subst hr
    rw [det_of_run_some M hn ps _ h, if_pos (not_le.mp this)]
  · push_neg at hall
    have hr := h2 hall
    subst hr
    exact det_of_run_none M hn ps h

/-! ## Properties of the operators -/

/-- C1 (defect in the code): with the modulus -5 the element -1 of the matrix [[-1]] becomes
-6, because the adjustment adds `m` and not `|m|`; so it is false that for every nonzero
modulus every element of `M % m` is at least 0 and below `|m|`. -/
theorem modInt_negative_modulus :
    modInt ⟨1, [-1]⟩ (-5) = .ok ⟨1, [-6]⟩ ∧
    SquareMat.get ⟨1, [-6]⟩ 0 0 = .ok (-6) ∧
    ¬ (∀ (M : SquareMat) (m : ℤ), m ≠ 0 → ∀ R, modInt M m = .ok R →
        ∀ i j, i < R.order → j < R.order → ∀ r, R.get i j = .ok r →
          0 ≤ r ∧ r < |(m : ℚ)|) := by
  refine ⟨by decide!, by decide!, fun h => ?_⟩
  have := h ⟨1, [-1]⟩ (-5) (by decide) ⟨1, [-6]⟩ (by decide!) 0 0 (by decide) (by decide)
    (-6) (by decide!)
  norm_num at this

/-- C2: for a modulus `m > 0`, `M % m` succeeds with the order of `M`, and its element at
`(i, j)` is the Euclidean remainder of `M[i][j]`: it lies in `[0, m)` and differs from
`M[i][j]` by an integer multiple of `m`, whatever the sign of `M[i][j]`. -/
theorem modInt_euclidean (M : SquareMat) (m : ℤ) (hm : 0 < m) :
    ∃ R, modInt M m = .ok R ∧ R.order = M.order ∧
      ∀ i j, i < M.order → j < M.order →
        ∃ x r, M.get i j = .ok x ∧ R.get i j = .ok r ∧ 0 ≤ r ∧ r < (m : ℚ) ∧
          ∃ z : ℤ, x - r = (z : ℚ) * (m : ℚ) := by
  obtain ⟨d, hd, _, hq⟩ := modInt_ok M m (ne_of_gt hm)
  refine ⟨⟨M.n, d⟩, hd, rfl, ?_⟩
  intro i j hi hj
  have hi2 : i < M.n := hi
  have hj2 : j < M.n := hj
  refine ⟨rd M.data (i * M.n + j), rd d (i * M.n + j), elem_ok _ _ hi2, elem_ok _ _ hi2, ?_⟩
  rw [hq _ (idx_lt hi2 hj2)]
  exact modCell_spec _ m hm

/-- C2, witness: the matrix [[2,4],[6,8]] with modulus 5 gives [[2,4],[1,3]], and the
element at (1, 0) is the remainder 1 of 6. -/
theorem modInt_euclidean_witness :
    (0 : ℤ) < 5 ∧ modInt ⟨2, [2, 4, 6, 8]⟩ 5 = .ok ⟨2, [2, 4, 1, 3]⟩ ∧
    ∃ R, modInt ⟨2, [2, 4, 6, 8]⟩ 5 = .ok R ∧ R.order = 2 ∧
      ∀ i j, i < 2 → j < 2 →
        ∃ x r, SquareMat.get ⟨2, [2, 4, 6, 8]⟩ i j = .ok x ∧ R.get i j = .ok r ∧ 0 ≤ r ∧
          r < ((5 : ℤ) : ℚ) ∧ ∃ z : ℤ, x - r = (z : ℚ) * ((5 : ℤ) : ℚ) :=
  ⟨by decide, by decide!, modInt_euclidean ⟨2, [2, 4, 6, 8]⟩ 5 (by decide)⟩

/-- C3: on a well-formed matrix of order at least 1, when every pivot that `operator!` tests
and the product of pivots it has accumulated are at least `EPS` in absolute value, `!M` is
the Leibniz determinant of `M`. -/
theorem det_eq_leibniz (M : SquareMat) (hwf : M.WF) (hn : 1 ≤ M.order)
    (hpiv : ∀ p ∈ pivots M, EPS ≤ |p|)
    (hacc : ∀ d, accumulated M = some d → EPS ≤ |d|) :
    det M = .ok (leibnizDet M) :=
  (det_exact M hwf (Nat.one_le_iff_ne_zero.mp hn) ⟨hpiv, hacc⟩).1

/-- C3, witness: `![[1,2],[3,4]]` is the Leibniz determinant -2, and `![[6]]` is 6. -/
theorem det_eq_leibniz_witness :
    (det ⟨2, [1, 2, 3, 4]⟩ = .ok (leibnizDet ⟨2, [1, 2, 3, 4]⟩) ∧
      leibnizDet ⟨2, [1, 2, 3, 4]⟩ = -2 ∧ det ⟨2, [1, 2, 3, 4]⟩ = .ok (-2)) ∧
    (det ⟨1, [6]⟩ = .ok (leibnizDet ⟨1, [6]⟩) ∧ leibnizDet ⟨1, [6]⟩ = 6 ∧
      det ⟨1, [6]⟩ = .ok 6) :=
  ⟨⟨det_eq_leibniz ⟨2, [1, 2, 3, 4]⟩ (by decide) (by decide) (by decide!) (by decide!),
      by rw [leibnizDet_eq, Matrix.det_fin_two]; simp only [mat_apply]; decide!,
      by decide!⟩,
    ⟨det_eq_leibniz ⟨1, [6]⟩ (by decide) (by decide) (by decide!) (by decide!),
      by rw [leibnizDet_eq, Matrix.det_fin_one]; simp only [mat_apply]; decide!,
      by decide!⟩⟩

theorem swap_rows_n (M : SquareMat) (p q : Nat) : (swap_rows M p q).n = M.n := rfl

theorem swap_rows_wf (M : SquareMat) (hwf : M.WF) (p q : Nat) (hp : p < M.n) (hq : q < M.n) :
    (swap_rows M p q).WF :=
  (swap_loop_spec M.n p q M.data hp hq hwf).1

theorem swap_rows_leibniz (M : SquareMat) (hwf : M.WF) (p q : Nat) (hp : p < M.n)
    (hq : q < M.n) (hpq : p ≠ q) : leibnizDet (swap_rows M p q) = -leibnizDet M := by
  rw [leibnizDet_eq, leibnizDet_eq]
  have := det_after_swap M.n p q M.data (swap_rows M p q).data hp hq
    (swap_loop_spec M.n p q M.data hp hq hwf).2
  rw [if_pos hpq] at this
  rw [swap_rows_n, this]
  ring

/-- C4, counterexample: for M = [[1,0,0],[1,2^-30,2^30],[1,-2^-30,2^30]] the second pivot
2^-30 is below `EPS`, so `!M` is 0, while with rows 0 and 1 exchanged every pivot passes and
the result is -2, which is not `-(!M)`. -/
theorem det_swap_rows_counterexample :
    SquareMat.WF ⟨3, [1, 0, 0, 1, 1 / 1073741824, 1073741824, 1, -1 / 1073741824, 1073741824]⟩ ∧
    det ⟨3, [1, 0, 0, 1, 1 / 1073741824, 1073741824, 1, -1 / 1073741824, 1073741824]⟩ = .ok 0 ∧
    det (swap_rows
      ⟨3, [1, 0, 0, 1, 1 / 1073741824, 1073741824, 1, -1 / 1073741824, 1073741824]⟩ 0 1)
      = .ok (-2) ∧
    det (swap_rows
      ⟨3, [1, 0, 0, 1, 1 / 1073741824, 1073741824, 1, -1 / 1073741824, 1073741824]⟩ 0 1)
      ≠ (det ⟨3, [1, 0, 0, 1, 1 / 1073741824, 1073741824, 1, -1 / 1073741824, 1073741824]⟩).map
          (fun d => -d) := by
  decide!

/-- C4, amended: for a well-formed matrix of order at least 2 and two distinct rows `p`, `q`,
`!(swap_rows(M, p, q)) = -(!M)` holds exactly when the `EPS` cut-offs of `operator!` fire on
both matrices or on neither. -/
theorem det_swap_rows_iff (M : SquareMat) (hwf : M.WF) (hn : 2 ≤ M.order) (p q : Nat)
    (hp : p < M.order) (hq : q < M.order) (hpq : p ≠ q) :
    det (swap_rows M p q) = (det M).map (fun d => -d) ↔
      (noCutoff M ↔ noCutoff (swap_rows M p q)) := by
  have hn0 : M.n ≠ 0 := by
    have : 2 ≤ M.n := hn
    omega
  have hwf2 := swap_rows_wf M hwf p q hp hq
  have hL := swap_rows_leibniz M hwf p q hp hq hpq
  have hn2 : (swap_rows M p q).n ≠ 0 := hn0
  by_cases c : noCutoff M
  · obtain ⟨e1, b1⟩ := det_exact M hwf hn0 c
    by_cases c2 : noCutoff (swap_rows M p q)
    · obtain ⟨e2, _⟩ := det_exact _ hwf2 hn2 c2
      rw [e1, e2, hL]
      simp only [c, c2, iff_true]
      rfl
    · have e2 := det_cut _ hwf2 hn2 c2
      rw [e1, e2]
      simp only [c, c2, iff_false, true_iff, not_true_eq_false]
      intro h
      have h0 : (0 : ℚ) = -leibnizDet M := by
        have := Except.ok.inj h
        simpa using this
      have : leibnizDet M = 0 := by linarith
      rw [this, abs_zero] at b1
      exact absurd EPS_pos (not_lt.mpr b1)
  · have e1 := det_cut M hwf hn0 c
    by_cases c2 : noCutoff (swap_rows M p q)
    · obtain ⟨e2, b2⟩ := det_exact _ hwf2 hn2 c2
      rw [e1, e2]
      simp only [c, c2, iff_true, false_iff, not_true_eq_false, iff_false]
      intro h
      have h0 : leibnizDet (swap_rows M p q) = -0 := by
        have := Except.ok.inj h
        simpa using this
      rw [h0, neg_zero, abs_zero] at b2
      exact absurd EPS_pos (not_lt.mpr b2)
    · have e2 := det_cut _ hwf2 hn2 c2
      rw [e1, e2]
      simp only [c, c2, iff_true]
      show (Except.ok 0 : Except Error ℚ) = Except.ok (-0)
      rw [neg_zero]

/-- C4, witness: on [[1,2],[3,4]] no cut-off fires before or after the exchange of rows 0
and 1, and the determinant goes from -2 to 2. -/
theorem det_swap_rows_iff_witness :
    (det (swap_rows ⟨2, [1, 2, 3, 4]⟩ 0 1) = (det ⟨2, [1, 2, 3, 4]⟩).map (fun d => -d) ↔
      (noCutoff ⟨2, [1, 2, 3, 4]⟩ ↔ noCutoff (swap_rows ⟨2, [1, 2, 3, 4]⟩ 0 1))) ∧
    noCutoff ⟨2, [1, 2, 3, 4]⟩ ∧ noCutoff (swap_rows ⟨2, [1, 2, 3, 4]⟩ 0 1) ∧
    det (swap_rows ⟨2, [1, 2, 3, 4]⟩ 0 1) = .ok 2 :=
  ⟨det_swap_rows_iff ⟨2, [1, 2, 3, 4]⟩ (by decide) (by decide) 0 1 (by decide) (by decide)
    (by decide), by decide!, by decide!, by decide!⟩

/-- C5: on a well-formed matrix of order at least 2 with two identical rows, `operator!`
returns 0, a value below `EPS` in absolute value. -/
theorem det_identical_rows (M : SquareMat) (hwf : M.WF) (hn : 2 ≤ M.order) (p q : Nat)
    (hp : p < M.order) (hq : q < M.order) (hpq : p ≠ q)
    (hrows : ∀ j, j < M.order → M.get p j = M.get q j) :
    ∃ d, det M = .ok d ∧ d = 0 ∧ |d| < EPS := by
  have hn0 : M.n ≠ 0 := by
    have : 2 ≤ M.n := hn
    omega
  have hp2 : p < M.n := hp
  have hq2 : q < M.n := hq
  have hL : leibnizDet M = 0 := by
    rw [leibnizDet_eq]
    apply Matrix.det_zero_of_row_eq (i := (⟨p, hp2⟩ : Fin M.n)) (j := ⟨q, hq2⟩)
      (by simpa [Fin.ext_iff] using hpq)
    funext j
    have := hrows j.val j.isLt
    simp only [SquareMat.get, elem_ok _ _ hp2, elem_ok _ _ hq2] at this
    exact Except.ok.inj this
  refine ⟨0, ?_, rfl, by simpa using EPS_pos⟩
  by_cases c : noCutoff M
  · obtain ⟨e1, _⟩ := det_exact M hwf hn0 c
    rw [e1, hL]
  · exact det_cut M hwf hn0 c

/-- C5, witness: `![[1,2],[1,2]]` is 0. -/
theorem det_identical_rows_witness :
    (∀ j, j < 2 → SquareMat.get ⟨2, [1, 2, 1, 2]⟩ 0 j = SquareMat.get ⟨2, [1, 2, 1, 2]⟩ 1 j) ∧
    ∃ d, det ⟨2, [1, 2, 1, 2]⟩ = .ok d ∧ d = 0 ∧ |d| < EPS :=
  ⟨by decide!, det_identical_rows ⟨2, [1, 2, 1, 2]⟩ (by decide) (by decide) 0 1 (by decide)
    (by decide) (by decide) (by decide!)⟩

/-- One pass of the outer loop on an identity buffer: the pivot is 1, there is no exchange,
and the buffer and the running value 1 stay as they are. -/
theorem detStage_identity (n i : Nat) (A : List ℚ) (hi : i < n) (hA : A.length = n * n)
    (hI : ∀ r c, r < n → c < n → rd A (r * n + c) = if r = c then 1 else 0) :
    detStage n i A 1 = .ok (1, some (A, 1)) := by
  obtain ⟨m, A1, _, hm1, hmax, hA1, hsw, _, hbig⟩ := detStage_spec n i A 1 hi hA
  have hii : rd A (i * n + i) = 1 := by rw [hI i i hi hi, if_pos rfl]
  have hm : m = i := by
    apply hmax
    intro j hj hjn
    rw [hI j i hjn hi, if_neg (by omega), hii]
    norm_num
  subst hm
  have e1 : A1 = A := by
    apply buf_ext_idx n A1 A hA1 hA
    intro r c hr hc
    rw [hsw r c hr hc]
    have : swapIdx m m r = r := by
      unfold swapIdx
      split
      · next h => exact h.symm
      · rfl
    rw [this]
  subst e1
  have hp : ¬ |rd A1 (m * n + m)| < EPS := by
    rw [hii]
    unfold EPS
    norm_num
  obtain ⟨A2, hA2, hel, hst⟩ := hbig hp
  have e2 : A2 = A1 := by
    apply buf_ext_idx n A2 A1 hA2 hA
    intro r c hr hc
    rw [hel r c hr hc]
    split
    · next h =>
      rw [hI r m hr hi, if_neg (by omega)]
      simp
    · rfl
  subst e2
  rw [hst, hii]
  simp

theorem detLoop_identity (n : Nat) (A : List ℚ) (hA : A.length = n * n)
    (hI : ∀ r c, r < n → c < n → rd A (r * n + c) = if r = c then 1 else 0) :
    ∀ steps i, i + steps = n → detLoop n steps i A 1 = .ok (List.replicate steps 1, some 1) := by
  intro steps
  induction steps with
  | zero => intro i _; rfl
  | succ steps ih =>
    intro i hi
    exact detLoop_next n steps i A A 1 1 1 _ _ (detStage_identity n i A (by omega) hA hI)
      (ih (i + 1) (by omega))

/-- C6: on a well-formed matrix of order at least 1 with 1 on the diagonal and 0 elsewhere,
`operator!` returns exactly 1. -/
theorem det_identity (M : SquareMat) (hwf : M.WF) (hn : 1 ≤ M.order)
    (hid : ∀ i, i < M.order → ∀ j, j < M.order → M.get i j = .ok (if i = j then 1 else 0)) :
    det M = .ok 1 := by
  have hn0 : M.n ≠ 0 := by
    have : 1 ≤ M.n := hn
    omega
  have hI : ∀ r c, r < M.n → c < M.n → rd M.data (r * M.n + c) = if r = c then 1 else 0 := by
    intro r c hr hc
    have := hid r hr c hc
    simp only [SquareMat.get, elem_ok _ _ hr] at this
    exact Except.ok.inj this
  have hrun := detLoop_identity M.n M.data hwf hI M.n 0 (by omega)
  rw [← copy_eq_self M hwf] at hrun
  have hc : (copy M).n = M.n := by rw [copy_eq_self M hwf]
  rw [hc] at hrun
  rw [det_of_run_some M hn0 _ 1 hrun]
  have : ¬ |(1 : ℚ)| < EPS := by
    unfold EPS
    norm_num
  rw [if_neg this]

/-- C6, witness: the determinant of the identity of order 3 is 1, and so is that of the
matrix `A^0` built by the power operator from a matrix `A` of order 2. -/
theorem det_identity_witness :
    det ⟨3, [1, 0, 0, 0, 1, 0, 0, 0, 1]⟩ = .ok 1 ∧
    (pow ⟨2, [0, 1, 2, 3]⟩ 0 >>= det) = .ok 1 :=
  ⟨det_identity ⟨3, [1, 0, 0, 0, 1, 0, 0, 0, 1]⟩ (by decide) (by decide) (by decide!),
    by decide!⟩

/-- C7: on a matrix of order at least 1 the power by recursive halving satisfies
`A^(k1+k2) = (A^k1) * (A^k2)` and `A^(k1+1) = A * (A^k1)`, as equalities of matrices (same
order, same cells). -/
theorem pow_add_mul (A : SquareMat) (hn : 1 ≤ A.order) (k1 k2 : Nat) :
    (∃ P1 P2 P, pow A k1 = .ok P1 ∧ pow A k2 = .ok P2 ∧ mul P1 P2 = .ok P ∧
      pow A (k1 + k2) = .ok P) ∧
    (∃ Pk P, pow A k1 = .ok Pk ∧ mul A Pk = .ok P ∧ pow A (k1 + 1) = .ok P) := by
  have hn0 : A.n ≠ 0 := by
    have : 1 ≤ A.n := hn
    omega
  obtain ⟨d1, e1, l1, m1⟩ := pow_mat A hn0 k1
  obtain ⟨d2, e2, l2, m2⟩ := pow_mat A hn0 k2
  obtain ⟨d12, e12, l12, m12⟩ := pow_mat A hn0 (k1 + k2)
  obtain ⟨ds, es, ls, ms⟩ := pow_mat A hn0 (k1 + 1)
  constructor
  · obtain ⟨d, e, l, m⟩ := mul_mat ⟨A.n, d1⟩ ⟨A.n, d2⟩ rfl
    simp only at e l m
    have : d = d12 := by
      apply mat_ext A.n d d12 l l12
      rw [m, m1, m2, m12, pow_add]
    subst this
    exact ⟨_, _, _, e1, e2, e, e12⟩
  · obtain ⟨d, e, l, m⟩ := mul_mat A ⟨A.n, d1⟩ rfl
    simp only at e l m
    have : d = ds := by
      apply mat_ext A.n d ds l ls
      rw [m, m1, ms, pow_succ']
    subst this
    exact ⟨_, _, e1, e, es⟩

/-- C7, witness: for A = [[0,1],[2,3]], `A^2 * A^3` and `A * A^2` are `A^5` and `A^3`. -/
theorem pow_add_mul_witness :
    1 ≤ SquareMat.order ⟨2, [0, 1, 2, 3]⟩ ∧
    pow ⟨2, [0, 1, 2, 3]⟩ 5 = .ok ⟨2, [78, 139, 278, 495]⟩ ∧
    (∃ P1 P2 P, pow ⟨2, [0, 1, 2, 3]⟩ 2 = .ok P1 ∧ pow ⟨2, [0, 1, 2, 3]⟩ 3 = .ok P2 ∧
      mul P1 P2 = .ok P ∧ pow ⟨2, [0, 1, 2, 3]⟩ (2 + 3) = .ok P) ∧
    (∃ Pk P, pow ⟨2, [0, 1, 2, 3]⟩ 2 = .ok Pk ∧ mul ⟨2, [0, 1, 2, 3]⟩ Pk = .ok P ∧
      pow ⟨2, [0, 1, 2, 3]⟩ (2 + 1) = .ok P) :=
  ⟨by decide, by decide!, pow_add_mul ⟨2, [0, 1, 2, 3]⟩ (by decide) 2 3⟩

/-- C8: on a matrix `A` of order at least 1, `A^0` has the order of `A`, 1 at every diagonal
cell and 0 at every other cell, and `(A^0) * A` has the cells of `A`. -/
theorem pow_zero_identity (A : SquareMat) (hn : 1 ≤ A.order) :
    ∃ I, pow A 0 = .ok I ∧ I.order = A.order ∧
      (∀ i j, i < A.order → j < A.order → I.get i j = .ok (if i = j then 1 else 0)) ∧
      ∃ P, mul I A = .ok P ∧ P.order = A.order ∧
        ∀ i j, i < A.order → j < A.order → P.get i j = A.get i j := by
  have hn0 : A.n ≠ 0 := by
    have : 1 ≤ A.n := hn
    omega
  refine ⟨_, pow_at_zero A hn0, rfl, ?_, ?_⟩
  · intro i j hi hj
    have hi2 : i < A.n := hi
    simp only [SquareMat.get, elem_ok _ _ hi2]
    rw [(identity_loop A.n).2 i j hi hj]
  · obtain ⟨d, e, l, m⟩ := mul_mat
      ⟨A.n, forLoop 0 A.n (fun i d => d.set (i * A.n + i) 1) (List.replicate (A.n * A.n) 0)⟩ A rfl
    simp only at e l m
    refine ⟨_, e, rfl, ?_⟩
    intro i j hi hj
    have hi2 : i < A.n := hi
    have hj2 : j < A.n := hj
    simp only [SquareMat.get, elem_ok _ _ hi2]
    rw [identity_mat, one_mul] at m
    have := congrFun (congrFun m ⟨i, hi2⟩) ⟨j, hj2⟩
    simp only [mat_apply] at this
    rw [this]

/-- C8, witness: for the singular matrix A = [[1,2],[2,4]], `A^0` is [[1,0],[0,1]] and
`(A^0) * A` is `A`; for the zero matrix of order 2, `A^0` is [[1,0],[0,1]] too. -/
theorem pow_zero_identity_witness :
    pow ⟨2, [1, 2, 2, 4]⟩ 0 = .ok ⟨2, [1, 0, 0, 1]⟩ ∧
    mul ⟨2, [1, 0, 0, 1]⟩ ⟨2, [1, 2, 2, 4]⟩ = .ok ⟨2, [1, 2, 2, 4]⟩ ∧
    pow ⟨2, [0, 0, 0, 0]⟩ 0 = .ok ⟨2, [1, 0, 0, 1]⟩ ∧
    ∃ I, pow ⟨2, [1, 2, 2, 4]⟩ 0 = .ok I ∧ I.order = 2 ∧
      (∀ i j, i < 2 → j < 2 → I.get i j = .ok (if i = j then 1 else 0)) ∧
      ∃ P, mul I ⟨2, [1, 2, 2, 4]⟩ = .ok P ∧ P.order = 2 ∧
        ∀ i j, i < 2 → j < 2 → P.get i j = SquareMat.get ⟨2, [1, 2, 2, 4]⟩ i j :=
  ⟨by decide!, by decide!, by decide!, pow_zero_identity ⟨2, [1, 2, 2, 4]⟩ (by decide)⟩

theorem pow_empty (M : SquareMat) (k : Nat) (h : M.n = 0) :
    pow M k = .error Error.logic_error := by
  rw [pow, if_pos h]
  rfl

/-- C9: the power `M^k`, for every `k`, and the determinant `!M` fail with a logic error
exactly when the order of `M` is 0; on a matrix of order at least 1 both return a value. -/
theorem pow_det_logic_error_iff (M : SquareMat) (k : Nat) :
    (pow M k = .error Error.logic_error ↔ M.order = 0) ∧
    (det M = .error Error.logic_error ↔ M.order = 0) ∧
    (1 ≤ M.order → (∃ P, pow M k = .ok P) ∧ ∃ d, det M = .ok d) := by
  by_cases h : M.n = 0
  · refine ⟨⟨fun _ => h, fun _ => pow_empty M k h⟩, ⟨fun _ => h, fun _ => det_empty M h⟩, ?_⟩
    intro h1
    have : 1 ≤ M.n := h1
    omega
  · obtain ⟨d, e, _, _⟩ := pow_mat M h k
    obtain ⟨v, ev⟩ := det_total M h
    refine ⟨⟨fun h2 => ?_, fun h2 => absurd h2 h⟩, ⟨fun h2 => ?_, fun h2 => absurd h2 h⟩,
      fun _ => ⟨⟨_, e⟩, ⟨_, ev⟩⟩⟩
    · rw [e] at h2; cases h2
    · rw [ev] at h2; cases h2

theorem add_ok (a b : SquareMat) (h : a.n = b.n) :
    ∃ d, add a b = .ok ⟨a.n, d⟩ ∧ d.length = a.n * a.n ∧
      ∀ q, q < a.n * a.n → rd d q = rd a.data q + rd b.data q := by
  have hs := cellLoop_spec (a.n * a.n) (fun q => rd a.data q + rd b.data q)
    (fun i d => d.set i (rd a.data i + rd b.data i)) (List.replicate (a.n * a.n) 0)
    (by simp) (fun _ _ _ _ => rfl)
  refine ⟨forLoop 0 (a.n * a.n) (fun i d => d.set i (rd a.data i + rd b.data i))
    (List.replicate (a.n * a.n) 0), ?_, by simpa using hs.1, fun q hq => ?_⟩
  · simp only [add, ensure_same, order, h, ne_eq, not_true_eq_false, ↓reduceIte, ctor_zero]
    rw [← h]
    rfl
  · rw [hs.2 q, if_pos hq]

theorem add_err (a b : SquareMat) (h : a.n ≠ b.n) :
    add a b = .error Error.invalid_argument := by
  simp only [add, ensure_same, order, h, ne_eq, not_false_eq_true, ↓reduceIte]
  rfl

theorem sub_ok (a b : SquareMat) (h : a.n = b.n) :
    ∃ d, sub a b = .ok ⟨a.n, d⟩ ∧ d.length = a.n * a.n ∧
      ∀ q, q < a.n * a.n → rd d q = rd a.data q - rd b.data q := by
  have hs := cellLoop_spec (a.n * a.n) (fun q => rd a.data q - rd b.data q)
    (fun i d => d.set i (rd a.data i - rd b.data i)) (List.replicate (a.n * a.n) 0)
    (by simp) (fun _ _ _ _ => rfl)
  refine ⟨forLoop 0 (a.n * a.n) (fun i d => d.set i (rd a.data i - rd b.data i))
    (List.replicate (a.n * a.n) 0), ?_, by simpa using hs.1, fun q hq => ?_⟩
  · simp only [sub, ensure_same, order, h, ne_eq, not_true_eq_false, ↓reduceIte, ctor_zero]
    rw [← h]
    rfl
  · rw [hs.2 q, if_pos hq]

theorem sub_err (a b : SquareMat) (h : a.n ≠ b.n) :
    sub a b = .error Error.invalid_argument := by
  simp only [sub, ensure_same, order, h, ne_eq, not_false_eq_true, ↓reduceIte]
  rfl

theorem emul_ok (a b : SquareMat) (h : a.n = b.n) :
    ∃ d, emul a b = .ok ⟨a.n, d⟩ ∧ d.length = a.n * a.n ∧
      ∀ q, q < a.n * a.n → rd d q = rd a.data q * rd b.data q := by
  have hs := cellLoop_spec (a.n * a.n) (fun q => rd a.data q * rd b.data q)
    (fun i d => d.set i (rd a.data i * rd b.data i)) (List.replicate (a.n * a.n) 0)
    (by simp) (fun _ _ _ _ => rfl)
  refine ⟨forLoop 0 (a.n * a.n) (fun i d => d.set i (rd a.data i * rd b.data i))
    (List.replicate (a.n * a.n) 0), ?_, by simpa using hs.1, fun q hq => ?_⟩
  · simp only [emul, ensure_same, order, h, ne_eq, not_true_eq_false, ↓reduceIte, ctor_zero]
    rw [← h]
    rfl
  · rw [hs.2 q, if_pos hq]

theorem emul_err (a b : SquareMat) (h : a.n ≠ b.n) :
    emul a b = .error Error.invalid_argument := by
  simp only [emul, ensure_same, order, h, ne_eq, not_false_eq_true, ↓reduceIte]
  rfl

/-- Shape of the outcome of a pairwise operation: an order mismatch is the only failure and
it is an invalid-argument error; with equal orders the result has that order. -/
theorem pairwise_outcome (op : SquareMat → SquareMat → Except Error SquareMat)
    (A B : SquareMat) (hok : A.n = B.n → ∃ d, op A B = .ok ⟨A.n, d⟩)
    (herr : A.n ≠ B.n → op A B = .error Error.invalid_argument) :
    (op A B = .error Error.invalid_argument ↔ A.order ≠ B.order) ∧
    (A.order = B.order → ∃ R, op A B = .ok R ∧ R.order = A.order) := by
  constructor
  · constructor
    · intro h heq
      obtain ⟨d, hd⟩ := hok heq
      rw [hd] at h
      cases h
    · exact herr
  · intro heq
    obtain ⟨d, hd⟩ := hok heq
    exact ⟨_, hd, rfl⟩

/-- C10: each of `A + B`, `A - B`, `A * B` and the element-wise `A % B` fails with an
invalid-argument error exactly when the orders of `A` and `B` differ, and with equal orders
it succeeds with a matrix of that order. -/
theorem pairwise_invalid_argument_iff (A B : SquareMat) :
    ((add A B = .error Error.invalid_argument ↔ A.order ≠ B.order) ∧
      (A.order = B.order → ∃ R, add A B = .ok R ∧ R.order = A.order)) ∧
    ((sub A B = .error Error.invalid_argument ↔ A.order ≠ B.order) ∧
      (A.order = B.order → ∃ R, sub A B = .ok R ∧ R.order = A.order)) ∧
    ((mul A B = .error Error.invalid_argument ↔ A.order ≠ B.order) ∧
      (A.order = B.order → ∃ R, mul A B = .ok R ∧ R.order = A.order)) ∧
    ((emul A B = .error Error.invalid_argument ↔ A.order ≠ B.order) ∧
      (A.order = B.order → ∃ R, emul A B = .ok R ∧ R.order = A.order)) :=
  ⟨pairwise_outcome add A B (fun h => (add_ok A B h).imp fun _ hd => hd.1) (add_err A B),
    pairwise_outcome sub A B (fun h => (sub_ok A B h).imp fun _ hd => hd.1) (sub_err A B),
    pairwise_outcome mul A B (fun h => (mul_ok A B h).imp fun _ hd => hd.1) (mul_err A B),
    pairwise_outcome emul A B (fun h => (emul_ok A B h).imp fun _ hd => hd.1) (emul_err A B)⟩

/-! ## Scalar product and division -/

theorem smul_ok (s : ℚ) (M : SquareMat) :
    ∃ d, smul s M = .ok ⟨M.n, d⟩ ∧ d.length = M.n * M.n ∧
      ∀ q, q < M.n * M.n → rd d q = s * rd M.data q := by
  have hs := cellLoop_spec (M.n * M.n) (fun q => s * rd M.data q)
    (fun i d => d.set i (s * rd M.data i)) (List.replicate (M.n * M.n) 0)
    (by simp) (fun _ _ _ _ => rfl)
  refine ⟨forLoop 0 (M.n * M.n) (fun i d => d.set i (s * rd M.data i))
    (List.replicate (M.n * M.n) 0), ?_, by simpa using hs.1, fun q hq => ?_⟩
  · simp only [smul, order, ctor_zero]
    rfl
  · rw [hs.2 q, if_pos hq]

theorem divScalar_ok (M : SquareMat) (s : ℚ) (h : ¬ |s| < EPS) :
    ∃ d, divScalar M s = .ok ⟨M.n, d⟩ ∧ d.length = M.n * M.n ∧
      ∀ q, q < M.n * M.n → rd d q = rd M.data q / s := by
  have hs := cellLoop_spec (M.n * M.n) (fun q => rd M.data q / s)
    (fun i d => d.set i (rd M.data i / s)) (List.replicate (M.n * M.n) 0)
    (by simp) (fun _ _ _ _ => rfl)
  refine ⟨forLoop 0 (M.n * M.n) (fun i d => d.set i (rd M.data i / s))
    (List.replicate (M.n * M.n) 0), ?_, by simpa using hs.1, fun q hq => ?_⟩
  · simp only [divScalar, h, order, ctor_zero]
    rfl
  · rw [hs.2 q, if_pos hq]

theorem divScalar_err (M : SquareMat) (s : ℚ) (h : |s| < EPS) :
    divScalar M s = .error Error.invalid_argument := by
  simp only [divScalar, h]
  rfl

/-- On every value a `double` can hold around the threshold (anything below `2^-30` in
absolute value, and every multiple of `2^-82`, as all doubles from `2^-30` on are), being
below `EPS` is the same as being below the decimal `1/10^9`. -/
theorem EPS_decimal (d : ℚ)
    (h : |d| < 1 / 1073741824 ∨ ∃ k : ℤ, d = (k : ℚ) / 4835703278458516698824704) :
    |d| < EPS ↔ |d| < 1 / 1000000000 := by
  have h1 : (1 : ℚ) / 1000000000 < EPS := by unfold EPS; norm_num
  rcases h with h | ⟨k, rfl⟩
  · have h2 : (1 : ℚ) / 1073741824 < 1 / 1000000000 := by norm_num
    exact ⟨fun _ => lt_trans h h2, fun _ => lt_trans (lt_trans h h2) h1⟩
  · refine ⟨fun hk => ?_, fun hk => lt_trans hk h1⟩
    unfold EPS at hk
    have hpos : (0 : ℚ) < 4835703278458516698824704 := by norm_num
    rw [abs_div, abs_of_pos hpos] at hk ⊢
    rw [div_lt_div_iff_of_pos_right hpos] at hk
    have hk2 : |k| < 4835703278458517 := by exact_mod_cast hk
    have hk3 : |k| ≤ 4835703278458516 := by omega
    have hk4 : |(k : ℚ)| ≤ 4835703278458516 := by exact_mod_cast hk3
    rw [div_lt_iff₀ hpos]
    calc |(k : ℚ)| ≤ 4835703278458516 := hk4
      _ < 1 / 1000000000 * 4835703278458516698824704 := by norm_num

/-- C11: `M / d` fails with an invalid-argument error exactly when `|d| < EPS`, the double
`1e-9`, and otherwise returns a matrix of the order of `M` whose element `(i, j)` is
`M[i][j] / d`; for every `d` that a double can hold, both hold with the decimal `1/10^9` in
the place of `EPS`. -/
theorem divScalar_guard (M : SquareMat) (d : ℚ) :
    (divScalar M d = .error Error.invalid_argument ↔ |d| < EPS) ∧
    (¬ |d| < EPS → ∃ R, divScalar M d = .ok R ∧ R.order = M.order ∧
      ∀ i j, i < M.order → j < M.order →
        ∃ x, M.get i j = .ok x ∧ R.get i j = .ok (x / d)) ∧
    ((|d| < 1 / 1073741824 ∨ ∃ k : ℤ, d = (k : ℚ) / 4835703278458516698824704) →
      (divScalar M d = .error Error.invalid_argument ↔ |d| < 1 / 1000000000) ∧
      (¬ |d| < 1 / 1000000000 → ∃ R, divScalar M d = .ok R ∧ R.order = M.order ∧
        ∀ i j, i < M.order → j < M.order →
          ∃ x, M.get i j = .ok x ∧ R.get i j = .ok (x / d))) := by
  have hiff : divScalar M d = .error Error.invalid_argument ↔ |d| < EPS := by
    by_cases h : |d| < EPS
    · exact ⟨fun _ => h, fun _ => divScalar_err M d h⟩
    · obtain ⟨b, hb, _, _⟩ := divScalar_ok M d h
      refine ⟨fun h2 => ?_, fun h2 => absurd h2 h⟩
      rw [hb] at h2; cases h2
  have hok : ¬ |d| < EPS → ∃ R, divScalar M d = .ok R ∧ R.order = M.order ∧
      ∀ i j, i < M.order → j < M.order →
        ∃ x, M.get i j = .ok x ∧ R.get i j = .ok (x / d) := by
    intro h
    obtain ⟨b, hb, _, hq⟩ := divScalar_ok M d h
    refine ⟨_, hb, rfl, ?_⟩
    intro i j hi hj
    have hi2 : i < M.n := hi
    have hj2 : j < M.n := hj
    refine ⟨rd M.data (i * M.n + j), elem_ok _ _ hi2, ?_⟩
    simp only [SquareMat.get, elem_ok _ _ hi2]
    rw [hq _ (idx_lt hi2 hj2)]
  exact ⟨hiff, hok, fun hg => ⟨hiff.trans (EPS_decimal d hg),
    fun h => hok (fun h2 => h ((EPS_decimal d hg).mp h2))⟩⟩

/-- C11, witness: the division of [[2,3],[4,5]] by 0 is rejected, so is the division by
`2^-30`, which is below `1e-9`, and [[2,0],[0,2]] divided by 2 is [[1,0],[0,1]]. -/
theorem divScalar_guard_witness :
    divScalar ⟨2, [2, 3, 4, 5]⟩ 0 = .error Error.invalid_argument ∧
    divScalar ⟨2, [2, 3, 4, 5]⟩ (1 / 1073741824) = .error Error.invalid_argument ∧
    divScalar ⟨2, [2, 0, 0, 2]⟩ 2 = .ok ⟨2, [1, 0, 0, 1]⟩ ∧
    ∃ R, divScalar ⟨2, [2, 0, 0, 2]⟩ 2 = .ok R ∧ R.order = 2 ∧
      ∀ i j, i < 2 → j < 2 →
        ∃ x, SquareMat.get ⟨2, [2, 0, 0, 2]⟩ i j = .ok x ∧ R.get i j = .ok (x / 2) :=
  ⟨by decide!, by decide!, by decide!,
    (divScalar_guard ⟨2, [2, 0, 0, 2]⟩ 2).2.1 (by decide!)⟩

/-! ## Sum and comparisons -/

/-- The member `sum()` adds up the cells `0 .. n*n-1`. -/
theorem sum_eq (M : SquareMat) :
    M.sum = ∑ q in Finset.range (M.n * M.n), rd M.data q := by
  unfold SquareMat.sum
  apply forLoop_inv (fun k s => s = ∑ q in Finset.range k, rd M.data q) 0 (M.n * M.n)
    (fun i s => s + rd M.data i) 0 (Nat.zero_le _)
  · simp
  · intro k s _ _ hs
    rw [Finset.sum_range_succ, hs]

/-- C12: for matrices of any orders, `A == B` holds exactly when `|sum(A) - sum(B)| < EPS`
and `A < B` exactly when `sum(A) < sum(B) - EPS`; so matrices with equal sums compare `==`
true and `!=` false whatever their orders, as [[1,1],[1,1]] and [[2,1,1],[0,0,0],[0,0,0]]
do. -/
theorem comparison_by_sum (A B : SquareMat) :
    (opEq A B = true ↔ |A.sum - B.sum| < EPS) ∧
    (opLt A B = true ↔ A.sum < B.sum - EPS) ∧
    (A.sum = B.sum → opEq A B = true ∧ opNe A B = false) ∧
    (SquareMat.order ⟨2, [1, 1, 1, 1]⟩ ≠ SquareMat.order ⟨3, [2, 1, 1, 0, 0, 0, 0, 0, 0]⟩ ∧
      SquareMat.sum ⟨2, [1, 1, 1, 1]⟩ = 4 ∧
      SquareMat.sum ⟨3, [2, 1, 1, 0, 0, 0, 0, 0, 0]⟩ = 4 ∧
      opEq ⟨2, [1, 1, 1, 1]⟩ ⟨3, [2, 1, 1, 0, 0, 0, 0, 0, 0]⟩ = true ∧
      opNe ⟨2, [1, 1, 1, 1]⟩ ⟨3, [2, 1, 1, 0, 0, 0, 0, 0, 0]⟩ = false) := by
  refine ⟨by simp [opEq], by simp [opLt], fun h => ?_, by decide!⟩
  have : opEq A B = true := by
    simp only [opEq, h, sub_self, abs_zero, decide_eq_true_eq]
    exact EPS_pos
  exact ⟨this, by simp [opNe, this]⟩

/-- C14: for matrices of equal order, `(A + B) - B` has the order of `A`, each of its
elements is the element of `A` at the same place, and its sum is the sum of `A`. -/
theorem add_sub_cancel (A B : SquareMat) (h : A.order = B.order) :
    ∃ S R, add A B = .ok S ∧ sub S B = .ok R ∧ R.order = A.order ∧
      (∀ i j, i < A.order → j < A.order → R.get i j = A.get i j) ∧
      R.sum = A.sum := by
  have hn : A.n = B.n := h
  obtain ⟨dS, eS, _, cS⟩ := add_ok A B hn
  obtain ⟨dR, eR, _, cR⟩ := sub_ok ⟨A.n, dS⟩ B hn
  simp only at eR cR
  have hc : ∀ q, q < A.n * A.n → rd dR q = rd A.data q := by
    intro q hq
    rw [cR q hq, cS q hq]
    ring
  refine ⟨_, _, eS, eR, rfl, ?_, ?_⟩
  · intro i j hi hj
    have hi2 : i < A.n := hi
    simp only [SquareMat.get, elem_ok _ _ hi2]
    rw [hc _ (idx_lt hi2 hj)]
  · rw [sum_eq, sum_eq]
    exact Finset.sum_congr rfl (fun q hq => hc q (by simpa using hq))

/-- C14, witness: with A = [[1,2],[3,4]] and B = [[4,3],[2,1]], `(A + B) - B` is `A`. -/
theorem add_sub_cancel_witness :
    (add ⟨2, [1, 2, 3, 4]⟩ ⟨2, [4, 3, 2, 1]⟩ >>= fun S => sub S ⟨2, [4, 3, 2, 1]⟩)
      = .ok ⟨2, [1, 2, 3, 4]⟩ ∧
    ∃ S R, add ⟨2, [1, 2, 3, 4]⟩ ⟨2, [4, 3, 2, 1]⟩ = .ok S ∧ sub S ⟨2, [4, 3, 2, 1]⟩ = .ok R ∧
      R.order = 2 ∧
      (∀ i j, i < 2 → j < 2 → R.get i j = SquareMat.get ⟨2, [1, 2, 3, 4]⟩ i j) ∧
      R.sum = SquareMat.sum ⟨2, [1, 2, 3, 4]⟩ :=
  ⟨by decide!, add_sub_cancel ⟨2, [1, 2, 3, 4]⟩ ⟨2, [4, 3, 2, 1]⟩ (by decide)⟩

/-! ## Compound assignment -/

theorem add_wf (A B R : SquareMat) (h : add A B = .ok R) : R.WF ∧ R.n = A.n := by
  by_cases hn : A.n = B.n
  · obtain ⟨d, e, l, _⟩ := add_ok A B hn
    rw [e] at h
    cases h
    exact ⟨l, rfl⟩
  · rw [add_err A B hn] at h; cases h

theorem sub_wf (A B R : SquareMat) (h : sub A B = .ok R) : R.WF ∧ R.n = A.n := by
  by_cases hn : A.n = B.n
  · obtain ⟨d, e, l, _⟩ := sub_ok A B hn
    rw [e] at h
    cases h
    exact ⟨l, rfl⟩
  · rw [sub_err A B hn] at h; cases h

theorem mul_wf (A B R : SquareMat) (h : mul A B = .ok R) : R.WF ∧ R.n = A.n := by
  by_cases hn : A.n = B.n
  · obtain ⟨d, e, l, _⟩ := mul_ok A B hn
    rw [e] at h
    cases h
    exact ⟨l, rfl⟩
  · rw [mul_err A B hn] at h; cases h

theorem emul_wf (A B R : SquareMat) (h : emul A B = .ok R) : R.WF ∧ R.n = A.n := by
  by_cases hn : A.n = B.n
  · obtain ⟨d, e, l, _⟩ := emul_ok A B hn
    rw [e] at h
    cases h
    exact ⟨l, rfl⟩
  · rw [emul_err A B hn] at h; cases h

theorem modInt_err (M : SquareMat) : modInt M 0 = .error Error.invalid_argument := by
  simp only [modInt]
  rfl

theorem modInt_wf (A : SquareMat) (m : ℤ) (R : SquareMat) (h : modInt A m = .ok R) :
    R.WF ∧ R.n = A.n := by
  by_cases hm : m = 0
  · subst hm
    rw [modInt_err] at h; cases h
  · obtain ⟨d, e, l, _⟩ := modInt_ok A m hm
    rw [e] at h
    cases h
    exact ⟨l, rfl⟩

theorem divScalar_wf (A : SquareMat) (s : ℚ) (R : SquareMat) (h : divScalar A s = .ok R) :
    R.WF ∧ R.n = A.n := by
  by_cases hs : |s| < EPS
  · rw [divScalar_err A s hs] at h; cases h
  · obtain ⟨d, e, l, _⟩ := divScalar_ok A s hs
    rw [e] at h
    cases h
    exact ⟨l, rfl⟩

/-- The statement `*this = e`: on success the receiver is the value of `e`, on a throw the
receiver is as before and the error is passed on. -/
theorem assignResult_spec (self : SquareMat) (e : Except Error SquareMat)
    (hwf : ∀ R, e = .ok R → R.WF) :
    (∀ R, e = .ok R → assignResult self e = ⟨.ok (), R⟩) ∧
    (∀ err, e = .error err → assignResult self e = ⟨.error err, self⟩) := by
  constructor
  · intro R h
    subst h
    simp only [assignResult, assign, copy_eq_self R (hwf R rfl)]
  · intro err h
    subst h
    rfl

/-- A loop over the cells `0 .. m-1` that replaces the value `x` of each cell by `f x`. -/
theorem modifyLoop_spec (m : Nat) (f : ℚ → ℚ) (d : List ℚ) (hm : m ≤ d.length) :
    (forLoop 0 m (fun i d => d.set i (f (rd d i))) d).length = d.length ∧
      ∀ q, rd (forLoop 0 m (fun i d => d.set i (f (rd d i))) d) q =
        if q < m then f (rd d q) else rd d q := by
  apply forLoop_inv (fun k e => e.length = d.length ∧
      ∀ q, rd e q = if q < k then f (rd d q) else rd d q)
    0 m (fun i d => d.set i (f (rd d i))) d (Nat.zero_le _)
  · simp
  · intro k e _ hk ⟨hl, hq⟩
    refine ⟨by simp [hl], fun q => ?_⟩
    rw [rd_set _ _ _ _ (by omega)]
    by_cases e1 : k = q
    · subst e1
      simp [hq k]
    · have : (q < k + 1) = (q < k) := by
        apply propext; constructor <;> intro h <;> omega
      simp [e1, this, hq]

/-- Two cell-by-cell loops in a row whose functions undo each other give the buffer back. -/
theorem modifyLoop_inverse (m : Nat) (f g : ℚ → ℚ) (d : List ℚ) (hm : d.length = m)
    (hfg : ∀ x, g (f x) = x) :
    forLoop 0 m (fun i d => d.set i (g (rd d i))) (forLoop 0 m (fun i d => d.set i (f (rd d i))) d)
      = d := by
  have h1 := modifyLoop_spec m f d (le_of_eq hm.symm)
  have h2 := modifyLoop_spec m g (forLoop 0 m (fun i d => d.set i (f (rd d i))) d)
    (by rw [h1.1]; exact le_of_eq hm.symm)
  apply buf_ext
  · rw [h2.1, h1.1]
  · intro k hk
    rw [h2.1, h1.1, hm] at hk
    rw [h2.2 k, if_pos hk, h1.2 k, if_pos hk, hfg]

theorem mulAssignScalar_spec (A : SquareMat) (hwf : A.WF) (s : ℚ) (R : SquareMat)
    (h : mulScalar A s = .ok R) : mulAssignScalar A s = ⟨.ok (), R⟩ := by
  obtain ⟨d, e, l, c⟩ := smul_ok s A
  unfold mulScalar at h
  rw [e] at h
  cases h
  have hs := modifyLoop_spec (A.n * A.n) (fun x => x * s) A.data (le_of_eq hwf.symm)
  unfold mulAssignScalar
  have : forLoop 0 (A.n * A.n) (fun i d => d.set i (rd d i * s)) A.data = d := by
    apply buf_ext
    · rw [hs.1, l]; exact hwf
    · intro k hk
      rw [hs.1] at hk
      have hk2 : k < A.n * A.n := by rw [← hwf]; exact hk
      rw [hs.2 k, if_pos hk2, c k hk2]
      ring
  rw [this]

/-- C15: for a well-formed receiver `A` and each of the seven compound operators, when the
binary operator succeeds the receiver becomes its result, and when the binary operator fails
the compound operator fails with the same error and the receiver is as before. -/
theorem compound_refines_binary (A : SquareMat) (hwf : A.WF) (B : SquareMat) (s : ℚ) (m : ℤ) :
    ((∀ R, add A B = .ok R → addAssign A B = ⟨.ok (), R⟩) ∧
      (∀ e, add A B = .error e → addAssign A B = ⟨.error e, A⟩)) ∧
    ((∀ R, sub A B = .ok R → subAssign A B = ⟨.ok (), R⟩) ∧
      (∀ e, sub A B = .error e → subAssign A B = ⟨.error e, A⟩)) ∧
    ((∀ R, mul A B = .ok R → mulAssign A B = ⟨.ok (), R⟩) ∧
      (∀ e, mul A B = .error e → mulAssign A B = ⟨.error e, A⟩)) ∧
    ((∀ R, mulScalar A s = .ok R → mulAssignScalar A s = ⟨.ok (), R⟩) ∧
      (∀ e, mulScalar A s = .error e → mulAssignScalar A s = ⟨.error e, A⟩)) ∧
    ((∀ R, divScalar A s = .ok R → divAssign A s = ⟨.ok (), R⟩) ∧
      (∀ e, divScalar A s = .error e → divAssign A s = ⟨.error e, A⟩)) ∧
    ((∀ R, emul A B = .ok R → emulAssign A B = ⟨.ok (), R⟩) ∧
      (∀ e, emul A B = .error e → emulAssign A B = ⟨.error e, A⟩)) ∧
    ((∀ R, modInt A m = .ok R → modAssign A m = ⟨.ok (), R⟩) ∧
      (∀ e, modInt A m = .error e → modAssign A m = ⟨.error e, A⟩)) := by
  refine ⟨assignResult_spec A _ (fun R h => (add_wf A B R h).1),
    assignResult_spec A _ (fun R h => (sub_wf A B R h).1),
    assignResult_spec A _ (fun R h => (mul_wf A B R h).1),
    ⟨fun R h => mulAssignScalar_spec A hwf s R h, fun e h => ?_⟩,
    assignResult_spec A _ (fun R h => (divScalar_wf A s R h).1),
    assignResult_spec A _ (fun R h => (emul_wf A B R h).1),
    assignResult_spec A _ (fun R h => (modInt_wf A m R h).1)⟩
  obtain ⟨d, e2, _, _⟩ := smul_ok s A
  unfold mulScalar at h
  rw [e2] at h
  cases h

/-- C15, witness: the steps of the test on A = [[1,2],[3,4]] and B = [[4,3],[2,1]], a
division by 0 and a product with a matrix of order 1 that fail and leave A as it was. -/
theorem compound_refines_binary_witness :
    (addAssign ⟨2, [1, 2, 3, 4]⟩ ⟨2, [4, 3, 2, 1]⟩ = ⟨.ok (), ⟨2, [5, 5, 5, 5]⟩⟩ ∧
      mulAssign ⟨2, [1, 2, 3, 4]⟩ ⟨2, [4, 3, 2, 1]⟩ = ⟨.ok (), ⟨2, [8, 5, 20, 13]⟩⟩ ∧
      modAssign ⟨2, [8, 5, 20, 13]⟩ 5 = ⟨.ok (), ⟨2, [3, 0, 0, 3]⟩⟩ ∧
      mulAssignScalar ⟨2, [1, 2, 3, 4]⟩ 2 = ⟨.ok (), ⟨2, [2, 4, 6, 8]⟩⟩ ∧
      divAssign ⟨2, [1, 2, 3, 4]⟩ 0 = ⟨.error Error.invalid_argument, ⟨2, [1, 2, 3, 4]⟩⟩ ∧
      mulAssign ⟨2, [1, 2, 3, 4]⟩ ⟨1, [1]⟩
        = ⟨.error Error.invalid_argument, ⟨2, [1, 2, 3, 4]⟩⟩) ∧
    (∀ R, mulScalar ⟨2, [1, 2, 3, 4]⟩ 2 = .ok R →
      mulAssignScalar ⟨2, [1, 2, 3, 4]⟩ 2 = ⟨.ok (), R⟩) ∧
    (∀ e, divScalar ⟨2, [1, 2, 3, 4]⟩ 2 = .error e →
      divAssign ⟨2, [1, 2, 3, 4]⟩ 2 = ⟨.error e, ⟨2, [1, 2, 3, 4]⟩⟩) :=
  ⟨by decide!,
    (compound_refines_binary ⟨2, [1, 2, 3, 4]⟩ (by decide) ⟨2, [4, 3, 2, 1]⟩ 2 5).2.2.2.1.1,
    (compound_refines_binary ⟨2, [1, 2, 3, 4]⟩ (by decide) ⟨2, [4, 3, 2, 1]⟩ 2 5).2.2.2.2.1.2⟩

/-! ## Increment and decrement -/

/-- C16: on a well-formed matrix `A`, `A++` returns `A` as it was and `++A` returns the
receiver after the call; either way the receiver keeps its order and has every element
increased by 1. The same holds for `--` with 1 subtracted, and an increment followed by a
decrement (or the reverse) gives `A` back. -/
theorem inc_dec_spec (A : SquareMat) (hwf : A.WF) :
    ((postInc A).1 = A ∧ (preInc A).1 = (preInc A).2 ∧ (postInc A).2 = (preInc A).2 ∧
      (preInc A).2.order = A.order ∧ (preInc A).2.WF ∧
      ∀ i j, i < A.order → j < A.order →
        ∃ x, A.get i j = .ok x ∧ (preInc A).2.get i j = .ok (x + 1)) ∧
    ((postDec A).1 = A ∧ (preDec A).1 = (preDec A).2 ∧ (postDec A).2 = (preDec A).2 ∧
      (preDec A).2.order = A.order ∧ (preDec A).2.WF ∧
      ∀ i j, i < A.order → j < A.order →
        ∃ x, A.get i j = .ok x ∧ (preDec A).2.get i j = .ok (x - 1)) ∧
    (preDec (preInc A).2).2 = A ∧ (preInc (preDec A).2).2 = A := by
  have hle : A.n * A.n ≤ A.data.length := le_of_eq hwf.symm
  have hi := modifyLoop_spec (A.n * A.n) (fun x => x + 1) A.data hle
  have hd := modifyLoop_spec (A.n * A.n) (fun x => x - 1) A.data hle
  have hwi : (preInc A).2.WF := by
    show (forLoop 0 (A.n * A.n) (fun i d => d.set i (rd d i + 1)) A.data).length = A.n * A.n
    rw [hi.1]; exact hwf
  have hwd : (preDec A).2.WF := by
    show (forLoop 0 (A.n * A.n) (fun i d => d.set i (rd d i - 1)) A.data).length = A.n * A.n
    rw [hd.1]; exact hwf
  have hci : ∀ q, q < A.n * A.n → rd (preInc A).2.data q = rd A.data q + 1 := by
    intro q hq
    show rd (forLoop 0 (A.n * A.n) (fun i d => d.set i (rd d i + 1)) A.data) q = _
    rw [hi.2 q, if_pos hq]
  have hcd : ∀ q, q < A.n * A.n → rd (preDec A).2.data q = rd A.data q - 1 := by
    intro q hq
    show rd (forLoop 0 (A.n * A.n) (fun i d => d.set i (rd d i - 1)) A.data) q = _
    rw [hd.2 q, if_pos hq]
  refine ⟨⟨copy_eq_self A hwf, rfl, rfl, rfl, hwi, ?_⟩,
    ⟨copy_eq_self A hwf, rfl, rfl, rfl, hwd, ?_⟩, ?_, ?_⟩
  · intro i j hi2 hj2
    have h1 : i < A.n := hi2
    refine ⟨rd A.data (i * A.n + j), elem_ok _ _ h1, ?_⟩
    have h2 : i < (preInc A).2.n := h1
    simp only [SquareMat.get, elem_ok _ _ h2]
    rw [← hci _ (idx_lt h1 hj2)]
    rfl
  · intro i j hi2 hj2
    have h1 : i < A.n := hi2
    refine ⟨rd A.data (i * A.n + j), elem_ok _ _ h1, ?_⟩
    have h2 : i < (preDec A).2.n := h1
    simp only [SquareMat.get, elem_ok _ _ h2]
    rw [← hcd _ (idx_lt h1 hj2)]
    rfl
  · obtain ⟨n, d⟩ := A
    show SquareMat.mk n (forLoop 0 (n * n) (fun i d => d.set i (rd d i - 1))
      (forLoop 0 (n * n) (fun i d => d.set i (rd d i + 1)) d)) = SquareMat.mk n d
    rw [modifyLoop_inverse (n * n) (fun x => x + 1) (fun x => x - 1) d hwf (fun x => by ring)]
  · obtain ⟨n, d⟩ := A
    show SquareMat.mk n (forLoop 0 (n * n) (fun i d => d.set i (rd d i + 1))
      (forLoop 0 (n * n) (fun i d => d.set i (rd d i - 1)) d)) = SquareMat.mk n d
    rw [modifyLoop_inverse (n * n) (fun x => x - 1) (fun x => x + 1) d hwf (fun x => by ring)]

/-- C16, witness: the test on A = [[1,1],[1,1]]: `++A` gives [[2,2],[2,2]], then `A--`
returns [[2,2],[2,2]] and leaves [[1,1],[1,1]]. -/
theorem inc_dec_spec_witness :
    (preInc ⟨2, [1, 1, 1, 1]⟩ = (⟨2, [2, 2, 2, 2]⟩, ⟨2, [2, 2, 2, 2]⟩) ∧
      postDec ⟨2, [2, 2, 2, 2]⟩ = (⟨2, [2, 2, 2, 2]⟩, ⟨2, [1, 1, 1, 1]⟩) ∧
      postInc ⟨2, [1, 1, 1, 1]⟩ = (⟨2, [1, 1, 1, 1]⟩, ⟨2, [2, 2, 2, 2]⟩)) ∧
    (postInc ⟨2, [1, 1, 1, 1]⟩).1 = ⟨2, [1, 1, 1, 1]⟩ ∧
    (preDec (preInc ⟨2, [1, 1, 1, 1]⟩).2).2 = ⟨2, [1, 1, 1, 1]⟩ :=
  ⟨by decide!, (inc_dec_spec ⟨2, [1, 1, 1, 1]⟩ (by decide)).1.1,
    (inc_dec_spec ⟨2, [1, 1, 1, 1]⟩ (by decide)).2.2.1⟩

/-! ## Construction and row access -/

/-- The product `n * n` of `std::size_t` values is the exact product exactly for
`n < 2^32`. -/
theorem size_mul_self_iff (n : Nat) : size_mul n n = n * n ↔ n < 4294967296 := by
  unfold size_mul
  constructor
  · intro h
    by_contra hcon
    have h1 : 4294967296 ≤ n := Nat.le_of_not_lt hcon
    have h2 : 4294967296 * 4294967296 ≤ n * n := Nat.mul_le_mul h1 h1
    have h3 : n * n % 18446744073709551616 < 18446744073709551616 :=
      Nat.mod_lt _ (by decide)
    omega
  · intro h
    apply Nat.mod_eq_of_lt
    have h1 : n * n ≤ 4294967295 * 4294967295 := Nat.mul_le_mul (by omega) (by omega)
    omega

/-- Below order `2^32` the constructor with the arithmetic of `std::size_t` is the
constructor with the exact product. -/
theorem ctor_size_t_eq_ctor (n : Nat) (v : ℚ) (h : n < 4294967296) :
    ctor_size_t n v = ctor n v := by
  unfold ctor_size_t ctor
  rw [(size_mul_self_iff n).mpr h]

/-- Cell `i * n + j` with `j < n` lies in the row `r` exactly when `i = r`. -/
theorem row_range_iff {n i j r : Nat} (hj : j < n) :
    (r * n ≤ i * n + j ∧ i * n + j < r * n + n) ↔ i = r := by
  constructor
  · rintro ⟨h1, h2⟩
    have e : i * n + j = r * n + (i * n + j - r * n) := by omega
    exact (idx_inj hj (by omega) e).1
  · rintro rfl
    omega

/-- The inner loop of the initializer-list constructor on the row `r`: the values of `row`
go to the cells from `r * n + c` on, in order. -/
theorem rowFill_spec (n r : Nat) : ∀ (row : List ℚ) (d : List ℚ) (c : Nat),
    r * n + c + row.length ≤ d.length →
    ((row.foldl (fun (w : List ℚ × Nat) (v : ℚ) => (w.1.set (idx n r w.2) v, w.2 + 1))
        (d, c)).1).length = d.length ∧
    ∀ q, rd (row.foldl (fun (w : List ℚ × Nat) (v : ℚ) => (w.1.set (idx n r w.2) v, w.2 + 1))
        (d, c)).1 q =
      if r * n + c ≤ q ∧ q < r * n + c + row.length then row.getD (q - (r * n + c)) 0
      else rd d q := by
  intro row
  induction row with
  | nil =>
    intro d c _
    refine ⟨rfl, fun q => ?_⟩
    have : ¬ (r * n + c ≤ q ∧ q < r * n + c + ([] : List ℚ).length) := by
      simp only [List.length_nil]; omega
    rw [if_neg this]
    rfl
  | cons v vs ih =>
    intro d c hlen
    simp only [List.length_cons] at hlen
    have hin : r * n + c < d.length := by omega
    obtain ⟨l1, c1⟩ := ih (d.set (idx n r c) v) (c + 1) (by simp only [List.length_set]; omega)
    simp only [List.foldl_cons]
    refine ⟨by rw [l1, List.length_set], fun q => ?_⟩
    rw [c1 q]
    by_cases e : q = r * n + c
    · subst e
      have n1 : ¬ (r * n + (c + 1) ≤ r * n + c ∧ r * n + c < r * n + (c + 1) + vs.length) := by
        omega
      have p1 : r * n + c ≤ r * n + c ∧ r * n + c < r * n + c + (v :: vs).length := by
        simp only [List.length_cons]; omega
      rw [if_neg n1, if_pos p1, Nat.sub_self]
      simp only [idx, rd_set_eq _ _ _ hin]
      rfl
    · by_cases e2 : r * n + (c + 1) ≤ q ∧ q < r * n + (c + 1) + vs.length
      · have p1 : r * n + c ≤ q ∧ q < r * n + c + (v :: vs).length := by
          simp only [List.length_cons]; omega
        rw [if_pos e2, if_pos p1]
        have : q - (r * n + c) = (q - (r * n + (c + 1))) + 1 := by omega
        rw [this]
        rfl
      · have n1 : ¬ (r * n + c ≤ q ∧ q < r * n + c + (v :: vs).length) := by
          simp only [List.length_cons]; omega
        rw [if_neg e2, if_neg n1]
        exact rd_set_ne _ _ _ _ (fun h => e h.symm)

/-- The outer loop of the initializer-list constructor when every row has length `n`: it
does not throw, and row `i` of the list fills row `i` of the buffer. -/
theorem rowsFill_spec (n : Nat) : ∀ (rows : List (List ℚ)) (d : List ℚ) (r : Nat),
    (∀ row ∈ rows, row.length = n) → (r + rows.length) * n ≤ d.length →
    ∃ t, rows.foldlM (fun (st : List ℚ × Nat) (row : List ℚ) =>
        if row.length ≠ n then (throw Error.invalid_argument : Except Error (List ℚ × Nat))
        else
          pure ((row.foldl (fun (w : List ℚ × Nat) (v : ℚ) =>
            (w.1.set (idx n st.2 w.2) v, w.2 + 1)) (st.1, 0)).1, st.2 + 1)) (d, r)
        = .ok (t, r + rows.length) ∧ t.length = d.length ∧
      ∀ i j, j < n → rd t (i * n + j) =
        if r ≤ i ∧ i < r + rows.length then (rows.getD (i - r) []).getD j 0
        else rd d (i * n + j) := by
  intro rows
  induction rows with
  | nil =>
    intro d r _ _
    refine ⟨d, rfl, rfl, fun i j _ => ?_⟩
    have : ¬ (r ≤ i ∧ i < r + ([] : List (List ℚ)).length) := by
      simp only [List.length_nil]; omega
    rw [if_neg this]
  | cons row rest ih =>
    intro d r hall hlen
    have hrow : row.length = n := hall row (List.mem_cons_self _ _)
    simp only [List.length_cons] at hlen
    have hle1 : (r + 1) * n ≤ (r + (rest.length + 1)) * n :=
      Nat.mul_le_mul_right n (by omega)
    have hsucc : (r + 1) * n = r * n + n := Nat.succ_mul r n
    obtain ⟨l1, c1⟩ := rowFill_spec n r row d 0 (by rw [hrow]; omega)
    have hlen2 : (r + 1 + rest.length) * n ≤
        ((row.foldl (fun (w : List ℚ × Nat) (v : ℚ) => (w.1.set (idx n r w.2) v, w.2 + 1))
          (d, 0)).1).length := by
      rw [l1]
      have : r + 1 + rest.length = r + (rest.length + 1) := by omega
      rw [this]; exact hlen
    obtain ⟨t, ht, tl, tc⟩ := ih _ (r + 1)
      (fun x hx => hall x (List.mem_cons_of_mem _ hx)) hlen2
    refine ⟨t, ?_, by rw [tl, l1], ?_⟩
    · rw [List.foldlM_cons]
      simp only [hrow, ne_eq, not_true_eq_false, ↓reduceIte, pure_bind]
      simp only [hrow, ne_eq, not_true_eq_false, ↓reduceIte] at ht
      rw [ht]
      simp only [List.length_cons]
      have : r + 1 + rest.length = r + (rest.length + 1) := by omega
      rw [this]
    · intro i j hj
      rw [tc i j hj]
      by_cases e1 : r + 1 ≤ i ∧ i < r + 1 + rest.length
      · have p1 : r ≤ i ∧ i < r + (row :: rest).length := by
          simp only [List.length_cons]; omega
        rw [if_pos e1, if_pos p1]
        have : i - r = (i - (r + 1)) + 1 := by omega
        rw [this]
        rfl
      · rw [if_neg e1, c1 (i * n + j)]
        by_cases e2 : i = r
        · subst e2
          have p1 : i ≤ i ∧ i < i + (row :: rest).length := by
            simp only [List.length_cons]; omega
          have p2 : i * n + 0 ≤ i * n + j ∧ i * n + j < i * n + 0 + row.length := by
            rw [hrow]; omega
          rw [if_pos p1, if_pos p2, Nat.sub_self]
          have : i * n + j - (i * n + 0) = j := by omega
          rw [this]
          rfl
        · have n1 : ¬ (r ≤ i ∧ i < r + (row :: rest).length) := by
            simp only [List.length_cons]; omega
          have n2 : ¬ (r * n + 0 ≤ i * n + j ∧ i * n + j < r * n + 0 + row.length) := by
            rw [hrow]
            intro h
            exact e2 ((row_range_iff hj).mp ⟨by omega, by omega⟩)
          rw [if_neg n1, if_neg n2]

/-- The outer loop of the initializer-list constructor throws when a row has another
length than `n`. -/
theorem rowsFill_err (n : Nat) : ∀ (rows : List (List ℚ)) (st : List ℚ × Nat),
    (∃ row ∈ rows, row.length ≠ n) →
    rows.foldlM (fun (st : List ℚ × Nat) (row : List ℚ) =>
        if row.length ≠ n then (throw Error.invalid_argument : Except Error (List ℚ × Nat))
        else
          pure ((row.foldl (fun (w : List ℚ × Nat) (v : ℚ) =>
            (w.1.set (idx n st.2 w.2) v, w.2 + 1)) (st.1, 0)).1, st.2 + 1)) st
      = .error Error.invalid_argument := by
  intro rows
  induction rows with
  | nil =>
    rintro st ⟨row, hrow, _⟩
    simp at hrow
  | cons row rest ih =>
    rintro st ⟨x, hx, hbad⟩
    rw [List.foldlM_cons]
    by_cases hr : row.length ≠ n
    · rw [if_pos hr]
      rfl
    · rw [if_neg hr, pure_bind]
      apply ih
      rcases List.mem_cons.mp hx with e | e
      · subst e; exact absurd hbad hr
      · exact ⟨x, e, hbad⟩

/-- C18: the constructor from a list of rows fails with an invalid-argument error exactly
when the list is empty or some row has a length other than the number of rows; otherwise
the matrix has as many rows as the list, a buffer of that many squared cells, and at
`(i, j)` the `j`-th value of the `i`-th row. -/
theorem fromRows_spec (init : List (List ℚ)) :
    (fromRows init = .error Error.invalid_argument ↔
      init = [] ∨ ∃ row ∈ init, row.length ≠ init.length) ∧
    (init ≠ [] → (∀ row ∈ init, row.length = init.length) →
      ∃ M, fromRows init = .ok M ∧ M.order = init.length ∧ M.WF ∧
        ∀ i j row v, init[i]? = some row → row[j]? = some v → M.get i j = .ok v) := by
  have hok : init ≠ [] → (∀ row ∈ init, row.length = init.length) →
      ∃ M, fromRows init = .ok M ∧ M.order = init.length ∧ M.WF ∧
        ∀ i j row v, init[i]? = some row → row[j]? = some v → M.get i j = .ok v := by
    intro hne hall
    have h0 : init.length ≠ 0 := by
      intro h; exact hne (List.length_eq_zero.mp h)
    obtain ⟨t, ht, tl, tc⟩ := rowsFill_spec init.length init
      (alloc (init.length * init.length)) 0 hall (by simp [alloc])
    refine ⟨⟨init.length, t⟩, ?_, rfl, ?_, ?_⟩
    · unfold fromRows
      simp only [h0, ↓reduceIte]
      rw [Nat.zero_add] at ht
      simp only [pure_bind, ht, ok_bind]
      rfl
    · show t.length = init.length * init.length
      rw [tl]; simp [alloc]
    · intro i j row v hi hj
      have hil : i < init.length := by
        rcases Nat.lt_or_ge i init.length with h | h
        · exact h
        · rw [List.getElem?_eq_none h] at hi; cases hi
      have hrow : row ∈ init := List.getElem?_mem hi
      have hjl : j < init.length := by
        rw [← hall row hrow]
        rcases Nat.lt_or_ge j row.length with h | h
        · exact h
        · rw [List.getElem?_eq_none h] at hj; cases hj
      have hil2 : i < (SquareMat.mk init.length t).n := hil
      simp only [SquareMat.get, elem_ok _ _ hil2]
      rw [tc i j hjl, if_pos ⟨Nat.zero_le _, by omega⟩, Nat.sub_zero]
      simp [List.getD_eq_getElem?_getD, hi, hj]
  refine ⟨⟨fun h => ?_, fun h => ?_⟩, hok⟩
  · by_contra hcon
    push_neg at hcon
    obtain ⟨M, hM, _⟩ := hok hcon.1 hcon.2
    rw [hM] at h
    cases h
  · rcases h with h | h
    · subst h
      rfl
    · have h0 : init.length ≠ 0 := by
        obtain ⟨row, hrow, _⟩ := h
        intro h1
        rw [List.length_eq_zero.mp h1] at hrow
        simp at hrow
      unfold fromRows
      simp only [h0, ↓reduceIte, pure_bind]
      rw [rowsFill_err init.length init _ h]
      rfl

/-- C18, witness: {{1,2},{3,4}} gives the matrix of order 2 with 3 at (1, 0); the single row
{1,2,3} and the empty list are rejected. -/
theorem fromRows_spec_witness :
    (fromRows [[1, 2], [3, 4]] = .ok ⟨2, [1, 2, 3, 4]⟩ ∧
      SquareMat.get ⟨2, [1, 2, 3, 4]⟩ 1 0 = .ok 3 ∧
      fromRows [[1, 2, 3]] = .error Error.invalid_argument ∧
      fromRows [] = .error Error.invalid_argument) ∧
    ∃ M, fromRows [[1, 2], [3, 4]] = .ok M ∧ M.order = 2 ∧ M.WF ∧
      ∀ i j row v, [[1, 2], [3, 4]][i]? = some row → row[j]? = some v → M.get i j = .ok v :=
  ⟨by decide!, (fromRows_spec [[1, 2], [3, 4]]).2 (by decide) (by decide)⟩

/-- C19: the row access `M[i]` fails with an out-of-range error exactly when `i` is at least
the order of `M`, so always on the empty matrix; otherwise it yields the offset `i * n` of
row `i` in the buffer, and `M[i][j]` is the cell `i * n + j`, which for `j < n` is a cell of
the buffer of a well-formed matrix. -/
theorem row_access_spec (M : SquareMat) (i : Nat) :
    (rowPtr M.n i = .error Error.out_of_range ↔ i ≥ M.order) ∧
    (i ≥ M.order → ∀ j, M.get i j = .error Error.out_of_range) ∧
    (M.order = 0 → rowPtr M.n i = .error Error.out_of_range) ∧
    (i < M.order → rowPtr M.n i = .ok (i * M.n) ∧
      (∀ j, M.get i j = .ok (rd M.data (idx M.n i j))) ∧
      (M.WF → ∀ j, j < M.order →
        ∃ x, M.data[idx M.n i j]? = some x ∧ M.get i j = .ok x)) := by
  have herr : i ≥ M.n → rowPtr M.n i = .error Error.out_of_range := by
    intro h
    unfold rowPtr
    rw [if_pos h]
    rfl
  refine ⟨⟨fun h => ?_, herr⟩, fun h j => ?_, fun h => herr (by
    have : M.n = 0 := h
    omega), fun h => ⟨rowPtr_ok h, fun j => elem_ok _ _ h, fun hwf j hj => ?_⟩⟩
  · by_contra hcon
    have hlt : i < M.n := Nat.lt_of_not_ge hcon
    rw [rowPtr_ok hlt] at h
    cases h
  · simp only [SquareMat.get, elem, herr h]
    rfl
  · have hlt : idx M.n i j < M.data.length := by
      rw [hwf]; exact idx_lt h hj
    refine ⟨M.data[idx M.n i j], List.getElem?_eq_getElem hlt, ?_⟩
    have hi2 : i < M.n := h
    simp only [SquareMat.get, elem_ok _ _ hi2, rd, List.getD_eq_getElem?_getD, idx] at hlt ⊢
    rw [List.getElem?_eq_getElem hlt]
    rfl

/-- C19, witness: on B = [[1,2],[3,4]] the access `B[5][0]` is out of range and `B[1][0]`
is 3, the cell at offset 2. -/
theorem row_access_spec_witness :
    SquareMat.get ⟨2, [1, 2, 3, 4]⟩ 5 0 = .error Error.out_of_range ∧
    SquareMat.get ⟨2, [1, 2, 3, 4]⟩ 1 0 = .ok 3 ∧
    (rowPtr 2 1 = .ok (1 * 2) ∧
      (∀ j, SquareMat.get ⟨2, [1, 2, 3, 4]⟩ 1 j = .ok (rd [1, 2, 3, 4] (idx 2 1 j))) ∧
      (SquareMat.WF ⟨2, [1, 2, 3, 4]⟩ → ∀ j, j < 2 →
        ∃ x, [1, 2, 3, (4 : ℚ)][idx 2 1 j]? = some x ∧
          SquareMat.get ⟨2, [1, 2, 3, 4]⟩ 1 j = .ok x)) :=
  ⟨by decide!, by decide!, (row_access_spec ⟨2, [1, 2, 3, 4]⟩ 1).2.2.2 (by decide)⟩

/-- C20: for matrices of equal order the product computed by the i-k-j loop succeeds, so no
row access in it raises out-of-range, and every cell `(i, j)` of the result is the standard
sum over `k` of `A[i][k] * B[k][j]`. -/
theorem mul_refines_triple_sum (A B : SquareMat) (h : A.order = B.order) :
    ∃ C, mul A B = .ok C ∧ mul A B ≠ .error Error.out_of_range ∧ C.order = A.order ∧
      ∀ i j, i < A.order → j < A.order → C.get i j = .ok (mulTripleSum A B i j) := by
  have hn : A.n = B.n := h
  obtain ⟨d, hd, _, hq⟩ := mul_ok A B hn
  refine ⟨_, hd, (by rw [hd]; intro h2; cases h2), rfl, ?_⟩
  intro i j hi hj
  have hi2 : i < A.n := hi
  simp only [SquareMat.get, elem_ok _ _ hi2]
  rw [hq i j hi hj]
  simp only [mulTripleSum, idx, hn]

/-- C20, witness: the products of the tests, `I * X = X` for X = [[2,3],[4,5]] and
[[1,2],[3,4]] * [[4,3],[2,1]] = [[8,5],[20,13]], whose cell (0, 0) is 1*4 + 2*2. -/
theorem mul_refines_triple_sum_witness :
    (mul ⟨2, [1, 0, 0, 1]⟩ ⟨2, [2, 3, 4, 5]⟩ = .ok ⟨2, [2, 3, 4, 5]⟩ ∧
      mul ⟨2, [1, 2, 3, 4]⟩ ⟨2, [4, 3, 2, 1]⟩ = .ok ⟨2, [8, 5, 20, 13]⟩ ∧
      mulTripleSum ⟨2, [1, 2, 3, 4]⟩ ⟨2, [4, 3, 2, 1]⟩ 0 0 = 1 * 4 + 2 * 2) ∧
    ∃ C, mul ⟨2, [1, 2, 3, 4]⟩ ⟨2, [4, 3, 2, 1]⟩ = .ok C ∧
      mul ⟨2, [1, 2, 3, 4]⟩ ⟨2, [4, 3, 2, 1]⟩ ≠ .error Error.out_of_range ∧ C.order = 2 ∧
      ∀ i j, i < 2 → j < 2 →
        C.get i j = .ok (mulTripleSum ⟨2, [1, 2, 3, 4]⟩ ⟨2, [4, 3, 2, 1]⟩ i j) :=
  ⟨⟨by decide!, by decide!, by simp [mulTripleSum, Finset.sum_range_succ, idx, rd]⟩,
    mul_refines_triple_sum ⟨2, [1, 2, 3, 4]⟩ ⟨2, [4, 3, 2, 1]⟩ (by decide)⟩

/-! ## Sum of element-wise results -/

/-- The cells of a buffer, read one by one over its length, add up to the sum of the list. -/
theorem sum_range_rd : ∀ d : List ℚ, ∑ q in Finset.range d.length, rd d q = d.sum := by
  intro d
  induction d with
  | nil => simp
  | cons a l ih =>
    rw [List.length_cons, Finset.sum_range_succ', List.sum_cons, ← ih, add_comm]
    rfl

/-- C21: for matrices of equal order, `sum(A + B) = sum(A) + sum(B)` and
`sum(A - B) = sum(A) - sum(B)`; `sum` adds up the `order * order` cells, which for a
well-formed matrix are all the cells of the buffer, and it is 0 on the empty matrix. -/
theorem sum_additive (A B : SquareMat) (h : A.order = B.order) :
    (∃ S D, add A B = .ok S ∧ sub A B = .ok D ∧
      S.sum = A.sum + B.sum ∧ D.sum = A.sum - B.sum) ∧
    A.sum = ∑ q in Finset.range (A.order * A.order), rd A.data q ∧
    (A.WF → A.sum = A.data.sum) ∧
    (A.order = 0 → A.sum = 0) := by
  have hn : A.n = B.n := h
  obtain ⟨dS, eS, _, cS⟩ := add_ok A B hn
  obtain ⟨dD, eD, _, cD⟩ := sub_ok A B hn
  refine ⟨⟨_, _, eS, eD, ?_, ?_⟩, sum_eq A, fun hwf => ?_, fun h0 => ?_⟩
  · rw [sum_eq, sum_eq A, sum_eq B, ← hn, ← Finset.sum_add_distrib]
    exact Finset.sum_congr rfl (fun q hq => cS q (by simpa using hq))
  · rw [sum_eq, sum_eq A, sum_eq B, ← hn, ← Finset.sum_sub_distrib]
    exact Finset.sum_congr rfl (fun q hq => cD q (by simpa using hq))
  · rw [sum_eq, ← sum_range_rd, hwf]
  · have : A.n = 0 := h0
    rw [sum_eq, this]
    simp

/-- C21, witness: the matrices of the test, with entries 1..9 and 9..1: both sums are 45,
the sum of `A + B` is 90 and the sum of `A - B` is 0; the empty matrix has sum 0. -/
theorem sum_additive_witness :
    (SquareMat.sum ⟨3, [1, 2, 3, 4, 5, 6, 7, 8, 9]⟩ = 45 ∧
      SquareMat.sum ⟨3, [9, 8, 7, 6, 5, 4, 3, 2, 1]⟩ = 45 ∧
      (add ⟨3, [1, 2, 3, 4, 5, 6, 7, 8, 9]⟩ ⟨3, [9, 8, 7, 6, 5, 4, 3, 2, 1]⟩).map SquareMat.sum
        = .ok 90 ∧
      (sub ⟨3, [1, 2, 3, 4, 5, 6, 7, 8, 9]⟩ ⟨3, [9, 8, 7, 6, 5, 4, 3, 2, 1]⟩).map SquareMat.sum
        = .ok 0 ∧
      SquareMat.sum ⟨0, []⟩ = 0) ∧
    ∃ S D, add ⟨3, [1, 2, 3, 4, 5, 6, 7, 8, 9]⟩ ⟨3, [9, 8, 7, 6, 5, 4, 3, 2, 1]⟩ = .ok S ∧
      sub ⟨3, [1, 2, 3, 4, 5, 6, 7, 8, 9]⟩ ⟨3, [9, 8, 7, 6, 5, 4, 3, 2, 1]⟩ = .ok D ∧
      S.sum = SquareMat.sum ⟨3, [1, 2, 3, 4, 5, 6, 7, 8, 9]⟩ +
        SquareMat.sum ⟨3, [9, 8, 7, 6, 5, 4, 3, 2, 1]⟩ ∧
      D.sum = SquareMat.sum ⟨3, [1, 2, 3, 4, 5, 6, 7, 8, 9]⟩ -
        SquareMat.sum ⟨3, [9, 8, 7, 6, 5, 4, 3, 2, 1]⟩ :=
  ⟨by decide!,
    (sum_additive ⟨3, [1, 2, 3, 4, 5, 6, 7, 8, 9]⟩ ⟨3, [9, 8, 7, 6, 5, 4, 3, 2, 1]⟩
      (by decide)).1⟩


/-! ## Storage invariant -/

theorem ctor_wf (order : Nat) (fill : ℚ) (M : SquareMat) (h : ctor order fill = .ok M) :
    M.WF ∧ M.n = order := by
  by_cases hb : order = 0 ∧ fill ≠ 0
  · unfold ctor at h
    rw [if_pos hb] at h
    cases h
  · rw [ctor_ok order fill hb] at h
    cases h
    exact ⟨by simp [WF], rfl⟩

end MatrixLib
